import Mathlib

/-!
Verification of the data-loading and repair routine `load_and_process_data`
of the skills-matrix dashboard (src/main.py), shallowly embedded in Lean.

Strings are modelled as `List Char`; Python machine behaviour is made
explicit: `str.strip`, `str.rfind`, `str.count`, slicing, `json.loads`
(as an executable recursive-descent parser for the JSON grammar, with
numeric values idealised as rationals; the nonstandard `NaN`/`Infinity`
literals Python's json additionally accepts are out of the model, as IEEE
non-finite values have no rational counterpart), Python `dict` insertion
semantics, and the pandas int64/float64 column upcast that happens when a
DataFrame mixes int and float scores.  Fallible Python code is embedded in
`Except`: exceptions caught by the per-row handler produce placeholder
rows, exceptions it does not catch (`AttributeError` from `.strip()` on a
non-string cell or `.items()` on a non-dict parse result, the `KeyError`
raised by column access on the empty DataFrame) propagate to the outer
handler, which returns an empty table and empty stats.
-/

/-- Python whitespace characters stripped by `str.strip()` (ASCII subset). -/
def isPySpace (c : Char) : Bool :=
  c = ' ' || c = '\t' || c = '\n' || c = '\r' || c = Char.ofNat 11 || c = Char.ofNat 12

/-- Model of Python `str.strip()`: drop leading and trailing whitespace. -/
def stripL (s : List Char) : List Char :=
  ((s.dropWhile isPySpace).reverse.dropWhile isPySpace).reverse

/-- `str.strip()` lifted to Lean `String`. -/
def stripS (s : String) : String :=
  String.mk (stripL s.data)

/-- Model of Python `s.rfind('"')`: index of the last double quote, if any.
(Python returns -1 when absent; we use `Option Nat`, `none` for -1.) -/
def rfindQ : List Char → Option Nat
  | [] => none
  | c :: t =>
    match rfindQ t with
    | some k => some (k + 1)
    | none => if c = '"' then some 0 else none

/-- Model of Python `s.startswith('\x7b')`. -/
def headIsOpen (s : List Char) : Bool :=
  match s with
  | [] => false
  | c :: _ => c = '{'

/-- Model of Python `s.endswith('\x7d')`. -/
def lastIsClose (s : List Char) : Bool :=
  match s.getLast? with
  | some c => c = '}'
  | none => false

/-- The truncation repair of lines 44-49 of `load_and_process_data`:
when the cleaned payload starts with a brace but does not end with one,
cut at the last double quote (if it sits at a positive index) and append
a closing brace. -/
def fixTruncation (s : List Char) : List Char :=
  if headIsOpen s ∧ ¬ lastIsClose s then
    match rfindQ s with
    | some k => if 0 < k then s.take (k + 1) ++ ['}'] else s
    | none => s
  else s

/-- Brace contribution of one character: +1 for a brace open, -1 for a
brace close, 0 otherwise. -/
def dBrace (c : Char) : Int :=
  if c = '{' then 1 else if c = '}' then -1 else 0

/-- Running total of `dBrace` over a string. -/
def braceDelta (s : List Char) : Int :=
  (s.map dBrace).sum

/-- The scan of lines 54-63: starting from counter `bc`, add 1 at each
brace open, subtract 1 at each brace close, and return `some (i+1)` at the
first close brace at which the counter reaches zero (the Python loop sets
`end_pos = i + 1` and breaks); `none` when the loop finishes without a
break (Python leaves `end_pos = 0`). -/
def findEnd : Int → List Char → Option Nat
  | _, [] => none
  | bc, c :: t =>
    if c = '{' then (findEnd (bc + 1) t).map (· + 1)
    else if c = '}' then
      if bc - 1 = 0 then some 1
      else (findEnd (bc - 1) t).map (· + 1)
    else (findEnd bc t).map (· + 1)

/-- The extra-data repair of lines 52-65: when the payload holds more than
one close brace, truncate at the scan position when the scan found one. -/
def fixExtraData (s : List Char) : List Char :=
  if 1 < s.count '}' then
    match findEnd 0 s with
    | some n => s.take n
    | none => s
  else s

/-- The whole string-repair pipeline applied to a payload cell before
`json.loads`: strip, truncation fix, extra-data fix (lines 41-65). -/
def repair (s : List Char) : List Char :=
  fixExtraData (fixTruncation (stripL s))

/-- Python values produced by `json.loads`, with numbers idealised as
exact rationals (`int` kept separate from `float`, since the original
code distinguishes them and pandas upcasts mixed columns). -/
inductive Json where
  | str (s : String)
  | int (n : Int)
  | float (q : ℚ)
  | bool (b : Bool)
  | null
  | arr (l : List Json)
  | obj (l : List (String × Json))

/-- JSON whitespace accepted by Python's json decoder. -/
def isJsonWs (c : Char) : Bool :=
  c = ' ' || c = '\t' || c = '\n' || c = '\r'

/-- Skip JSON whitespace. -/
def skipWs (s : List Char) : List Char :=
  s.dropWhile isJsonWs

/-- One-character JSON string escapes. -/
def escChar (c : Char) : Option Char :=
  if c = '"' then some '"'
  else if c = '\\' then some '\\'
  else if c = '/' then some '/'
  else if c = 'b' then some (Char.ofNat 8)
  else if c = 'f' then some (Char.ofNat 12)
  else if c = 'n' then some '\n'
  else if c = 'r' then some '\r'
  else if c = 't' then some '\t'
  else none

/-- Value of a hexadecimal digit. -/
def hexVal (c : Char) : Option Nat :=
  if '0' ≤ c ∧ c ≤ '9' then some (c.toNat - '0'.toNat)
  else if 'a' ≤ c ∧ c ≤ 'f' then some (c.toNat - 'a'.toNat + 10)
  else if 'A' ≤ c ∧ c ≤ 'F' then some (c.toNat - 'A'.toNat + 10)
  else none

/-- Parse the four hex digits of a `\u` escape. -/
def hex4 : List Char → Option (Char × List Char)
  | a :: b :: c :: d :: rest =>
    match hexVal a, hexVal b, hexVal c, hexVal d with
    | some x, some y, some z, some w => some (Char.ofNat (((x * 16 + y) * 16 + z) * 16 + w), rest)
    | _, _, _, _ => none
  | _ => none

/-- The remainder returned by `hex4` is four characters shorter. -/
theorem hex4_len {l r : List Char} {d : Char} (h : hex4 l = some (d, r)) :
    r.length + 4 = l.length := by
  match l with
  | [] => simp [hex4] at h
  | [_] => simp [hex4] at h
  | [_, _] => simp [hex4] at h
  | [_, _, _] => simp [hex4] at h
  | a :: b :: c :: e :: rest =>
    simp only [hex4] at h
    split at h
    · simp only [Option.some.injEq, Prod.mk.injEq] at h
      simp [← h.2]
    · exact absurd h (by simp)

/-- Body of a JSON string literal, after the opening quote: accumulate
characters until the closing quote; raw control characters are rejected
(Python's strict decoder) and backslash escapes are decoded.  Fuelled
structural recursion: the callers pass `length + 1` fuel, which a run
can never exhaust since every step consumes input. -/
def parseStrAux : Nat → List Char → List Char → Except Unit (String × List Char)
  | 0, _, _ => .error ()
  | _ + 1, [], _ => .error ()
  | fuel + 1, c :: t, acc =>
    if c = '"' then .ok (String.mk acc.reverse, t)
    else if c = '\\' then
      match t with
      | [] => .error ()
      | e :: t2 =>
        match escChar e with
        | some d => parseStrAux fuel t2 (d :: acc)
        | none =>
          if e = 'u' then
            match hex4 t2 with
            | some (d, t3) => parseStrAux fuel t3 (d :: acc)
            | none => .error ()
          else .error ()
    else if c.toNat < 32 then .error ()
    else parseStrAux fuel t (c :: acc)

/-- Numeric value of a digit string. -/
def digitsToNat (ds : List Char) : Nat :=
  ds.foldl (fun a c => a * 10 + (c.toNat - '0'.toNat)) 0

/-- A power of ten as a rational. -/
def pow10 (n : Nat) : ℚ :=
  (10 : ℚ) ^ n

/-- JSON number literal, per the JSON grammar Python's json enforces:
optional minus, an integer part without leading zeros, an optional
fractional part of one or more digits, an optional exponent.  Yields a
Python `int` when neither fraction nor exponent is present, else a
`float` (idealised as an exact rational). -/
def parseNumber (s : List Char) : Except Unit (Json × List Char) :=
  let (neg, s1) := match s with
    | '-' :: t => (true, t)
    | _ => (false, s)
  let (ids, s2) := s1.span Char.isDigit
  if ids = [] then .error ()
  else if 1 < ids.length ∧ ids.head? = some '0' then .error ()
  else
    let (fds, s3, hasFrac) := match s2 with
      | '.' :: t =>
        let (ds, r) := t.span Char.isDigit
        (ds, r, true)
      | _ => ([], s2, false)
    if hasFrac ∧ fds = [] then .error ()
    else
      let (eds, s4, hasExp, eneg) := match s3 with
        | 'e' :: '-' :: t => let (ds, r) := t.span Char.isDigit; (ds, r, true, true)
        | 'e' :: '+' :: t => let (ds, r) := t.span Char.isDigit; (ds, r, true, false)
        | 'e' :: t => let (ds, r) := t.span Char.isDigit; (ds, r, true, false)
        | 'E' :: '-' :: t => let (ds, r) := t.span Char.isDigit; (ds, r, true, true)
        | 'E' :: '+' :: t => let (ds, r) := t.span Char.isDigit; (ds, r, true, false)
        | 'E' :: t => let (ds, r) := t.span Char.isDigit; (ds, r, true, false)
        | _ => ([], s3, false, false)
      if hasExp ∧ eds = [] then .error ()
      else
        let mag : ℚ := (digitsToNat ids : ℚ) + (digitsToNat fds : ℚ) / pow10 fds.length
        let scaled : ℚ :=
          if hasExp then
            if eneg then mag / pow10 (digitsToNat eds) else mag * pow10 (digitsToNat eds)
          else mag
        let signed : ℚ := if neg then -scaled else scaled
        if hasFrac ∨ hasExp then .ok (Json.float signed, s4)
        else .ok (Json.int (if neg then -(digitsToNat ids : Int) else (digitsToNat ids : Int)), s4)

/-- Python `dict` insertion used while the object literal is built: an
existing key keeps its position but takes the new value, a new key is
appended. -/
def objInsert (acc : List (String × Json)) (k : String) (v : Json) : List (String × Json) :=
  if acc.any (fun p => p.1 == k) then
    acc.map (fun p => if p.1 == k then (p.1, v) else p)
  else acc ++ [(k, v)]

mutual

/-- JSON value parser (recursive descent, fuelled).  Fuel is burnt once
per call along a call path.  On any input, each consumed character is
charged with at most three decrements along a path: one for the
`parseValue` that inspects it and — when it is an opening brace or
bracket — one each for the `Start` and `Loop` entries it triggers; a
loop iteration is charged to the separator it consumes.  The top level
therefore passes `4 * length + 4` fuel, which no run can exhaust, so
the parser accepts and rejects exactly as the grammar does (nested
payloads included). -/
def parseValue : Nat → List Char → Except Unit (Json × List Char)
  | 0, _ => .error ()
  | _ + 1, [] => .error ()
  | fuel + 1, c :: t =>
    if c = '{' then parseObjStart fuel (skipWs t)
    else if c = '[' then parseArrStart fuel (skipWs t)
    else if c = '"' then
      match parseStrAux (t.length + 1) t [] with
      | .ok (s, rest) => .ok (Json.str s, rest)
      | .error e => .error e
    else if c = 't' then
      if t.take 3 = ['r', 'u', 'e'] then .ok (Json.bool true, t.drop 3) else .error ()
    else if c = 'f' then
      if t.take 4 = ['a', 'l', 's', 'e'] then .ok (Json.bool false, t.drop 4) else .error ()
    else if c = 'n' then
      if t.take 3 = ['u', 'l', 'l'] then .ok (Json.null, t.drop 3) else .error ()
    else parseNumber (c :: t)

/-- Object body directly after the brace open (whitespace skipped):
either an immediate brace close or a member list. -/
def parseObjStart : Nat → List Char → Except Unit (Json × List Char)
  | 0, _ => .error ()
  | fuel + 1, s =>
    match s with
    | '}' :: rest => .ok (Json.obj [], rest)
    | _ => parseObjLoop fuel s []

/-- One `"key": value` member, then either a comma and further members
or the closing brace. -/
def parseObjLoop : Nat → List Char → List (String × Json) → Except Unit (Json × List Char)
  | 0, _, _ => .error ()
  | fuel + 1, s, acc =>
    match s with
    | '"' :: t =>
      match parseStrAux (t.length + 1) t [] with
      | .error e => .error e
      | .ok (k, r1) =>
        match skipWs r1 with
        | ':' :: r2 =>
          match parseValue fuel (skipWs r2) with
          | .error e => .error e
          | .ok (v, r3) =>
            let acc2 := objInsert acc k v
            match skipWs r3 with
            | ',' :: r4 => parseObjLoop fuel (skipWs r4) acc2
            | '}' :: r4 => .ok (Json.obj acc2, r4)
            | _ => .error ()
        | _ => .error ()
    | _ => .error ()

/-- Array body directly after the bracket open (whitespace skipped). -/
def parseArrStart : Nat → List Char → Except Unit (Json × List Char)
  | 0, _ => .error ()
  | fuel + 1, s =>
    match s with
    | ']' :: rest => .ok (Json.arr [], rest)
    | _ => parseArrLoop fuel s []

/-- One array element, then either a comma and further elements or the
closing bracket. -/
def parseArrLoop : Nat → List Char → List Json → Except Unit (Json × List Char)
  | 0, _, _ => .error ()
  | fuel + 1, s, acc =>
    match parseValue fuel s with
    | .error e => .error e
    | .ok (v, r1) =>
      match skipWs r1 with
      | ',' :: r2 => parseArrLoop fuel (skipWs r2) (acc ++ [v])
      | ']' :: r2 => .ok (Json.arr (acc ++ [v]), r2)
      | _ => .error ()

end

/-- Model of `json.loads` on a repaired payload: parse one value, then
require only whitespace to remain (Python raises "Extra data" otherwise).
Every failure is a `JSONDecodeError`, the exception the per-row handler
catches. -/
def jsonLoads (s : List Char) : Except Unit Json :=
  match parseValue (4 * s.length + 4) (skipWs s) with
  | .ok (v, rest) => if skipWs rest = [] then .ok v else .error ()
  | .error e => .error e

/-- A numeric value tagged with its Python type (`int` or `float`),
`float` idealised as an exact rational. -/
inductive PyNum where
  | pyInt (n : Int)
  | pyFloat (q : ℚ)
deriving DecidableEq, Repr

/-- Numeric value of a `PyNum`. -/
def val : PyNum → ℚ
  | .pyInt n => n
  | .pyFloat q => q

/-- `true` exactly on Python floats. -/
def isFloat : PyNum → Bool
  | .pyInt _ => false
  | .pyFloat _ => true

/-- Model of Python `float(str)`: strip whitespace, optional sign, a
decimal literal with optional fractional part and exponent.  The
`inf`/`infinity`/`nan` spellings and digit-group underscores Python also
accepts are outside the model (non-finite floats have no rational
counterpart); the concrete inputs used below avoid them. -/
def pyFloatOfStr (s : List Char) : Option ℚ :=
  let t := stripL s
  let (neg, t1) := match t with
    | '-' :: r => (true, r)
    | '+' :: r => (false, r)
    | _ => (false, t)
  let (ids, t2) := t1.span Char.isDigit
  let (fds, t3) := match t2 with
    | '.' :: r => r.span Char.isDigit
    | _ => (([] : List Char), t2)
  if ids = [] ∧ fds = [] then none
  else
    let (eds, t4, hasExp, eneg) := match t3 with
      | 'e' :: '-' :: r => let (ds, r2) := r.span Char.isDigit; (ds, r2, true, true)
      | 'e' :: '+' :: r => let (ds, r2) := r.span Char.isDigit; (ds, r2, true, false)
      | 'e' :: r => let (ds, r2) := r.span Char.isDigit; (ds, r2, true, false)
      | 'E' :: '-' :: r => let (ds, r2) := r.span Char.isDigit; (ds, r2, true, true)
      | 'E' :: '+' :: r => let (ds, r2) := r.span Char.isDigit; (ds, r2, true, false)
      | 'E' :: r => let (ds, r2) := r.span Char.isDigit; (ds, r2, true, false)
      | _ => (([] : List Char), t3, false, false)
    if hasExp ∧ eds = [] then none
    else if ¬ t4 = [] then none
    else
      let mag : ℚ := (digitsToNat ids : ℚ) + (digitsToNat fds : ℚ) / pow10 fds.length
      let scaled : ℚ :=
        if hasExp then
          if eneg then mag / pow10 (digitsToNat eds) else mag * pow10 (digitsToNat eds)
        else mag
      some (if neg then -scaled else scaled)

/-- Model of `float(score)` on a parsed JSON value: ints, floats and
bools (Python bools are ints) convert; strings convert when
float-parseable, else `ValueError`; everything else is a `TypeError`. -/
def pyFloatOfJson : Json → Except Unit ℚ
  | .int n => .ok (n : ℚ)
  | .float q => .ok q
  | .bool b => .ok (if b then 1 else 0)
  | .str s => match pyFloatOfStr s.data with
    | some q => .ok q
    | none => .error ()
  | _ => .error ()

/-- Model of `isinstance(score, (int, float, str))`; note Python `bool`
is a subclass of `int`, so booleans pass the check. -/
def isIntFloatStr : Json → Bool
  | .int _ => true
  | .float _ => true
  | .bool _ => true
  | .str _ => true
  | _ => false

/-- Lines 74-77: `score_clean = float(score) if isinstance(score, (int,
float, str)) else 0`, with `ValueError`/`TypeError` caught and replaced
by `0`.  The fallback `0` is a Python `int`. -/
def scoreClean (v : Json) : PyNum :=
  if isIntFloatStr v then
    match pyFloatOfJson v with
    | .ok q => .pyFloat q
    | .error _ => .pyInt 0
  else .pyInt 0

/-- One row of the in-memory table (one attorney/skill/score triple). -/
structure Row where
  attorney : String
  skill : String
  score : PyNum
deriving DecidableEq, Repr

/-- A spreadsheet cell as pandas hands it to the loop: either a string,
or a non-string value (for example the NaN float an empty cell becomes),
on which `.strip()` raises `AttributeError`. -/
inductive Cell where
  | str (s : String)
  | nonStr
deriving DecidableEq, Repr

/-- An exception the per-row `except (json.JSONDecodeError, ValueError)`
handler does not catch, escaping to the outer `except Exception`. -/
inductive PyErr where
  | attributeError
deriving DecidableEq, Repr

/-- The rows recorded for one attorney from a parsed skills dict
(lines 71-89): keys stripped, scores cleaned. -/
def mkRows (name : String) (kvs : List (String × Json)) : List Row :=
  kvs.map (fun p => ⟨name, stripS p.1, scoreClean p.2⟩)

/-- The placeholder recorded when parsing fails for an attorney outside
the override list (lines 96-100); the score is the Python int `0`. -/
def placeholderRow (name : String) : Row :=
  ⟨name, "Data Parsing Error", .pyInt 0⟩

/-- Processing of one CSV row (lines 35-102): strip the name (a
non-string name cell raises), repair and parse the payload (a non-string
payload cell raises), record one row per skill on success; on
`JSONDecodeError` record a warning (tracked here by attorney name) and a
placeholder row unless the attorney is Hugh Kerr or Jeremy Budd, who are
skipped silently; a successful parse of a non-dict value raises
`AttributeError` at `.items()`, which the per-row handler does not
catch. -/
def processRow (nameCell payloadCell : Cell) : Except PyErr (List Row × List String) :=
  match nameCell with
  | .nonStr => .error .attributeError
  | .str rawName =>
    let name := stripS rawName
    match payloadCell with
    | .nonStr => .error .attributeError
    | .str payload =>
      match jsonLoads (repair payload.data) with
      | .error _ =>
        if name = "Hugh Kerr" ∨ name = "Jeremy Budd" then .ok ([], [])
        else .ok ([placeholderRow name], [name])
      | .ok (Json.obj kvs) => .ok (mkRows name kvs, [])
      | .ok _ => .error .attributeError

/-- The row loop of lines 35-102 over the whole CSV: row outputs and
warnings accumulate in order; an uncaught exception aborts the loop. -/
def processAllRows : List (Cell × Cell) → Except PyErr (List Row × List String)
  | [] => .ok ([], [])
  | rc :: rest =>
    match processRow rc.1 rc.2 with
    | .error e => .error e
    | .ok (rs, ws) =>
      match processAllRows rest with
      | .error e => .error e
      | .ok (rs2, ws2) => .ok (rs ++ rs2, ws ++ ws2)

/-- A row with its score coerced to Python float (value preserved). -/
def toFloatRow (r : Row) : Row :=
  ⟨r.attorney, r.skill, .pyFloat (val r.score)⟩

/-- The pandas numeric-column dtype rule for the Score column: a frame
whose scores mix int and float (or that is concatenated with a float
frame) holds the whole column as float64; an all-int column stays int64.
Values are preserved. -/
def upcast (rows : List Row) : List Row :=
  if rows.any (fun r => isFloat r.score) then rows.map toFloatRow else rows

/-- `pd.DataFrame(attorneys_data)` (line 105): dtype inference on the
Score column. -/
def mkDF (rows : List Row) : List Row :=
  upcast rows

/-- `pd.concat([df, new_row], ignore_index=True)` (line 153): append and
re-infer the common Score dtype. -/
def concatDF (df : List Row) (new : List Row) : List Row :=
  upcast (df ++ new)

/-- The hard-coded skills for Hugh Kerr (lines 109-123). -/
def hughSkills : List (String × Int) :=
  [("M&A (Skill 120)", 7), ("Escrow Agreements (Skill 69)", 3), ("Founder Agreements (Skill 79)", 3),
   ("Commercial Contracts (Skill 19)", 6), ("Debt & Equity Financing (Skill 39)", 6), ("Corporate Reorganization (Skill 30)", 3),
   ("Non-Disclosure Agreements (Skill 131)", 5), ("Master Services Agreements (Skill 121)", 6),
   ("Procurement (public) & RFPs (Skill 148)", 5), ("Procurement (private) & RFPs (Skill 147)", 5),
   ("Purchase and Sale Agreements (Skill 154)", 7), ("Affiliate Marketing Agreements (Skill 4)", 3),
   ("Waste Management and Recycling (Skill 168)", 3), ("Intellectual Property Licensing (Skill 99)", 3),
   ("Technology Licensing—Hardware (Skill 163)", 5), ("Drug, Alcohol, Gaming Regulatory (Skill 49)", 2),
   ("Independent Contractor Agreements (Skill 91)", 3), ("Distribution and Supply Agreements (Skill 47)", 7),
   ("Private Equity and Venture Capital (Skill 145)", 5), ("Commercial Real Estate Transactions (Skill 20)", 3),
   ("Private Company Corporate Governance (Skill 144)", 5), ("Equity Compensation or Incentive Plans (Skill 68)", 3),
   ("Joint Ventures and Strategic Alliances (Skill 107)", 3), ("Shareholder and Partnership Agreements (Skill 158)", 7),
   ("Product Warranties/Agreement Warranties (Skill 150)", 3), ("Bankrupcty and Insolvency (Debtor/Creditor) (Skill 11)", 3),
   ("Professional Services Agreements and related SOWs (Skill 151)", 3), ("Formation and Entity Creation/Operating Agreements (Skill 78)", 3)]

/-- The hard-coded skills for Jeremy Budd (lines 124-133). -/
def jeremySkills : List (String × Int) :=
  [("M&A (Skill 120)", 10), ("Oil and Gas Regulation (Skill 134)", 9), ("Mining (Skill 126)", 8),
   ("Commercial Contracts (Skill 19)", 8), ("Debt & Equity Financing (Skill 39)", 7),
   ("Securities and Capital Markets (Skill 157)", 7), ("Corporate Bylaws, Records and Governance (Skill 29)", 6),
   ("Purchase and Sale Agreements (Skill 154)", 6), ("Joint Ventures and Strategic Alliances (Skill 107)", 6),
   ("Corporate Reorganization (Skill 30)", 5), ("Energy Contracts and Agreements (Skill 61)", 5),
   ("Private Equity and Venture Capital (Skill 145)", 5), ("Due Diligence and Valuation (Skill 50)", 5),
   ("Cross-Border Transactions (Skill 33)", 4), ("Master Services Agreements (Skill 121)", 4),
   ("Professional Services Agreements and related SOWs (Skill 151)", 4)]

/-- The `manual_attorneys` override dict of lines 108-134, in insertion
order. -/
def manualAttorneys : List (String × List (String × Int)) :=
  [("Hugh Kerr", hughSkills), ("Jeremy Budd", jeremySkills)]

/-- The inner loop of lines 137-153 for one override attorney: drop every
existing row of that attorney, then append one single-row frame per
hard-coded skill with the score as `float(score)`.  (The parallel update
of the `all_skills` dict is omitted: that dict is never read after this
point in the source.) -/
def addManualRows (df : List Row) (name : String) (skills : List (String × Int)) : List Row :=
  skills.foldl
    (fun d p => concatDF d [⟨name, p.1, .pyFloat (p.2 : ℚ)⟩])
    (df.filter (fun r => ¬ r.attorney = name))

/-- Lines 137-153 over the whole override dict. -/
def applyManual (df : List Row) : List Row :=
  manualAttorneys.foldl (fun d p => addManualRows d p.1 p.2) df

/-- The per-skill aggregate record of `firm_stats` (lines 172-177). -/
structure SkillStats where
  avgScore : ℚ
  maxScore : ℚ
  minScore : ℚ
  count : Nat
deriving DecidableEq, Repr

/-- The dict update of lines 164-166: create the key with an empty list
on first sight, then append the score. -/
def addScoreG (m : List (String × List ℚ)) (sk : String) (sc : ℚ) : List (String × List ℚ) :=
  if m.any (fun p => p.1 == sk) then
    m.map (fun p => if p.1 == sk then (p.1, p.2 ++ [sc]) else p)
  else m ++ [(sk, [sc])]

/-- `all_skills_final` rebuilt from the final frame (lines 160-166). -/
def allSkillsFinal (df : List Row) : List (String × List ℚ) :=
  df.foldl (fun m r => addScoreG m r.skill (val r.score)) []

/-- Lines 172-177: `np.mean`, `max`, `min`, `len` of a nonempty score
list (the `if scores:` guard of line 171 yields `none` on an empty one). -/
def statsOf : List ℚ → Option SkillStats
  | [] => none
  | h :: t => some ⟨((h :: t).sum) / ((h :: t).length : ℚ), t.foldl max h, t.foldl min h, (h :: t).length⟩

/-- `firm_stats` (lines 156-177), keyed in first-appearance order. -/
def firmStats (df : List Row) : List (String × SkillStats) :=
  (allSkillsFinal df).filterMap (fun p => (statsOf p.2).map (fun st => (p.1, st)))

/-- `load_and_process_data` end to end.  `none` models a missing CSV file
(`FileNotFoundError`); a `processAllRows` error models any exception
escaping the per-row handler; both reach a handler that returns an empty
frame and empty stats.  When no CSV row contributed data,
`pd.DataFrame([])` has no `Attorney` column and line 139 raises
`KeyError`, likewise caught by the outer `except Exception` — hence the
empty-data guard.  Warnings are emitted to the UI, not returned. -/
def loadAndProcessData (input : Option (List (Cell × Cell))) :
    List Row × List (String × SkillStats) :=
  match input with
  | none => ([], [])
  | some csv =>
    match processAllRows csv with
    | .error _ => ([], [])
    | .ok (data, _warns) =>
      if data = [] then ([], [])
      else
        let df := applyManual (mkDF data)
        (df, firmStats df)

/-- Spec-side reading of the scan target: position `n` is the end of a
prefix whose final character is a close brace and whose running brace
count, started at `bc`, returns to zero there. -/
def closesAtFrom (bc : Int) (s : List Char) (n : Nat) : Prop :=
  1 ≤ n ∧ s.get? (n - 1) = some '}' ∧ bc + braceDelta (s.take n) = 0

instance (bc : Int) (s : List Char) (n : Nat) : Decidable (closesAtFrom bc s n) := by
  unfold closesAtFrom; infer_instance

/-- `closesAtFrom` with the counter started at zero, as the code does. -/
def closesAt (s : List Char) (n : Nat) : Prop :=
  closesAtFrom 0 s n

instance (s : List Char) (n : Nat) : Decidable (closesAt s n) := by
  unfold closesAt; infer_instance

/-- A balanced brace structure in the bracket-language sense: nonempty,
total count zero, and no prefix dips below zero. -/
def isBalancedStruct (l : List Char) : Bool :=
  !l.isEmpty && (braceDelta l == 0) &&
    (List.range (l.length + 1)).all (fun n => decide (0 ≤ braceDelta (l.take n)))

theorem braceDelta_nil : braceDelta [] = 0 := rfl

theorem braceDelta_cons (c : Char) (t : List Char) :
    braceDelta (c :: t) = dBrace c + braceDelta t := by
  simp [braceDelta]

theorem braceDelta_append (a b : List Char) :
    braceDelta (a ++ b) = braceDelta a + braceDelta b := by
  simp [braceDelta]

/-- A close position is bounded by the string length. -/
theorem closesAtFrom_le_length {bc : Int} {s : List Char} {n : Nat}
    (h : closesAtFrom bc s n) : n ≤ s.length := by
  obtain ⟨h1, h2, -⟩ := h
  obtain ⟨hlt, -⟩ := List.get?_eq_some.mp h2
  omega

/-- Shifting `closesAtFrom` across a leading character. -/
theorem closesAtFrom_cons_succ (bc : Int) (c : Char) (t : List Char) (k : Nat) (hk : 1 ≤ k) :
    closesAtFrom bc (c :: t) (k + 1) ↔ closesAtFrom (bc + dBrace c) t k := by
  cases k with
  | zero => omega
  | succ m =>
    unfold closesAtFrom
    simp only [Nat.add_sub_cancel, Nat.succ_sub_one, List.get?_cons_succ, List.take_succ_cons,
      braceDelta_cons]
    constructor
    · rintro ⟨-, h2, h3⟩
      exact ⟨by omega, h2, by omega⟩
    · rintro ⟨-, h2, h3⟩
      exact ⟨by omega, h2, by omega⟩

/-- `closesAtFrom` at position 1 means the first character closes the
count started at `bc`. -/
theorem closesAtFrom_one (bc : Int) (c : Char) (t : List Char) :
    closesAtFrom bc (c :: t) 1 ↔ (c = '}' ∧ bc = 1) := by
  unfold closesAtFrom
  simp only [Nat.sub_self, List.get?_cons_zero, Option.some.injEq, List.take_succ_cons,
    List.take_zero, braceDelta_cons, braceDelta_nil, le_refl, true_and]
  constructor
  · rintro ⟨h2, h3⟩
    subst h2
    simp [dBrace] at h3
    exact ⟨rfl, by omega⟩
  · rintro ⟨rfl, rfl⟩
    simp [dBrace]

/-- Step lemma for `findEnd_sound`: lift a first-close position across a
leading character. -/
theorem findEnd_sound_step {bc d : Int} {c : Char} {t : List Char} {k n : Nat}
    (hd : dBrace c = d)
    (hnot1 : ¬ closesAtFrom bc (c :: t) 1)
    (hk : closesAtFrom (bc + d) t k ∧ ∀ m, m < k → ¬ closesAtFrom (bc + d) t m)
    (hn : k + 1 = n) :
    closesAtFrom bc (c :: t) n ∧ ∀ m, m < n → ¬ closesAtFrom bc (c :: t) m := by
  subst hn
  have hk1 : 1 ≤ k := hk.1.1
  refine ⟨(closesAtFrom_cons_succ bc c t k hk1).mpr (by rw [hd]; exact hk.1), ?_⟩
  intro m hm hcm
  match m with
  | 0 => exact absurd hcm.1 (by omega)
  | 1 => exact hnot1 hcm
  | j + 2 =>
    have : closesAtFrom (bc + d) t (j + 1) := by
      rw [← hd]
      exact (closesAtFrom_cons_succ bc c t (j + 1) (by omega)).mp hcm
    exact hk.2 (j + 1) (by omega) this

/-- Step lemma for `findEnd_none`: no close position survives adding a
leading character that is itself not one. -/
theorem findEnd_none_step {bc d : Int} {c : Char} {t : List Char}
    (hd : dBrace c = d)
    (hnot1 : ¬ closesAtFrom bc (c :: t) 1)
    (hall : ∀ m, ¬ closesAtFrom (bc + d) t m) :
    ∀ n, ¬ closesAtFrom bc (c :: t) n := by
  intro n hcn
  match n with
  | 0 => exact absurd hcn.1 (by omega)
  | 1 => exact hnot1 hcn
  | j + 2 =>
    have : closesAtFrom (bc + d) t (j + 1) := by
      rw [← hd]
      exact (closesAtFrom_cons_succ bc c t (j + 1) (by omega)).mp hcn
    exact hall (j + 1) this

/-- Soundness of the scan: a returned position is a close position, and
the first one. -/
theorem findEnd_sound {bc : Int} {s : List Char} {n : Nat} (h : findEnd bc s = some n) :
    closesAtFrom bc s n ∧ ∀ m, m < n → ¬ closesAtFrom bc s m := by
  induction s generalizing bc n with
  | nil => simp [findEnd] at h
  | cons c t ih =>
    simp only [findEnd] at h
    split_ifs at h with hc1 hc2 hbc
    · obtain ⟨k, hk, hn⟩ := Option.map_eq_some'.mp h
      refine findEnd_sound_step (d := 1) (by simp [dBrace, hc1]) ?_ (ih hk) hn
      rw [closesAtFrom_one]
      rintro ⟨h1, -⟩
      rw [hc1] at h1
      exact absurd h1 (by decide)
    · have hn : n = 1 := by
        simpa using h.symm
      subst hn
      refine ⟨(closesAtFrom_one bc c t).mpr ⟨hc2, by omega⟩, ?_⟩
      intro m hm hcm
      have : m = 0 := by omega
      subst this
      exact absurd hcm.1 (by omega)
    · obtain ⟨k, hk, hn⟩ := Option.map_eq_some'.mp h
      have hbd : bc + (-1) = bc - 1 := by ring
      refine findEnd_sound_step (d := -1) (by simp [dBrace, hc1, hc2]) ?_ ?_ hn
      · rw [closesAtFrom_one]
        rintro ⟨-, h2⟩
        omega
      · rw [hbd]
        exact ih hk
    · obtain ⟨k, hk, hn⟩ := Option.map_eq_some'.mp h
      refine findEnd_sound_step (d := 0) (by simp [dBrace, hc1, hc2]) ?_ ?_ hn
      · rw [closesAtFrom_one]
        rintro ⟨h1, -⟩
        exact hc2 h1
      · rw [add_zero]
        exact ih hk

/-- Completeness side of the scan: when it returns nothing, no close
position exists. -/
theorem findEnd_none {bc : Int} {s : List Char} (h : findEnd bc s = none) :
    ∀ n, ¬ closesAtFrom bc s n := by
  induction s generalizing bc with
  | nil =>
    rintro n ⟨-, h2, -⟩
    simp at h2
  | cons c t ih =>
    simp only [findEnd] at h
    split_ifs at h with hc1 hc2 hbc
    · refine findEnd_none_step (d := 1) (by simp [dBrace, hc1]) ?_ (ih (Option.map_eq_none'.mp h))
      rw [closesAtFrom_one]
      rintro ⟨h1, -⟩
      rw [hc1] at h1
      exact absurd h1 (by decide)
    · have hbd : bc + (-1) = bc - 1 := by ring
      refine findEnd_none_step (d := -1) (by simp [dBrace, hc1, hc2]) ?_ ?_
      · rw [closesAtFrom_one]
        rintro ⟨-, h2⟩
        omega
      · rw [hbd]
        exact ih (Option.map_eq_none'.mp h)
    · refine findEnd_none_step (d := 0) (by simp [dBrace, hc1, hc2]) ?_ ?_
      · rw [closesAtFrom_one]
        rintro ⟨h1, -⟩
        exact hc2 h1
      · rw [add_zero]
        exact ih (Option.map_eq_none'.mp h)

/-- Claim C1, counterexample.  On the payload `\x7d\x7b\x7b\x7d\x7d a \x7d`
(which holds more than one close brace) the repair keeps the prefix of
length 4 found by the scan, although the running count of open minus
close braces already returns to zero at the strictly shorter prefix of
length 2, and although no prefix is a balanced brace structure (every
nonempty prefix starts with a close brace, so the count dips negative) —
so the result is neither the shortest zero-return prefix nor the first
balanced brace structure nor the unchanged string. -/
theorem claim_C1_cex :
    1 < (['}', '{', '{', '}', '}', 'a', '}'] : List Char).count '}' ∧
    fixExtraData ['}', '{', '{', '}', '}', 'a', '}'] = ['}', '{', '{', '}'] ∧
    braceDelta ((['}', '{', '{', '}', '}', 'a', '}'] : List Char).take 1) ≠ 0 ∧
    braceDelta ((['}', '{', '{', '}', '}', 'a', '}'] : List Char).take 2) = 0 ∧
    fixExtraData ['}', '{', '{', '}', '}', 'a', '}'] ≠
      (['}', '{', '{', '}', '}', 'a', '}'] : List Char).take 2 ∧
    fixExtraData ['}', '{', '{', '}', '}', 'a', '}'] ≠ ['}', '{', '{', '}', '}', 'a', '}'] ∧
    ((List.range 8).all
      (fun n => !isBalancedStruct ((['}', '{', '{', '}', '}', 'a', '}'] : List Char).take n)))
      = true := by
  decide

/-- Claim C1, amended: whenever the cleaned payload holds more than one
close brace, the repair replaces it with the prefix ending at the first
close brace at which the running count of open minus close braces
reaches zero; when no position closes the count this way, the payload is
unchanged by this step. -/
theorem claim_C1_amended (s : List Char) (hc : 1 < s.count '}') :
    (∀ n, closesAt s n → (∀ m, m < n → ¬ closesAt s m) → fixExtraData s = s.take n) ∧
    ((∀ n, n ≤ s.length → ¬ closesAt s n) → fixExtraData s = s) := by
  unfold closesAt
  constructor
  · intro n hn hmin
    unfold fixExtraData
    rw [if_pos hc]
    cases hfe : findEnd 0 s with
    | none => exact absurd hn (findEnd_none hfe n)
    | some k =>
      obtain ⟨hck, hkmin⟩ := findEnd_sound hfe
      have h1 : ¬ k < n := fun hlt => hmin k hlt hck
      have h2 : ¬ n < k := fun hlt => hkmin n hlt hn
      have hkn : k = n := by omega
      rw [hkn]
  · intro hall
    unfold fixExtraData
    rw [if_pos hc]
    cases hfe : findEnd 0 s with
    | none => rfl
    | some k =>
      obtain ⟨hck, -⟩ := findEnd_sound hfe
      exact absurd hck (hall k (closesAtFrom_le_length hck))

/-- Claim C1, witness: on `\x7b\x7d x \x7d` the first zero-return close
brace sits at position 2 and the repair keeps that prefix; on `\x7d\x7d`
no close brace returns the count to zero and the string is unchanged. -/
theorem claim_C1_witness :
    fixExtraData ['{', '}', 'x', '}'] = ['{', '}'] ∧
    fixExtraData ['}', '}'] = ['}', '}'] := by
  constructor
  · exact (claim_C1_amended ['{', '}', 'x', '}'] (by decide)).1 2 (by decide) (by decide)
  · exact (claim_C1_amended ['}', '}'] (by decide)).2 (by decide)

/-- When `rfindQ` finds nothing, the string has no double quote. -/
theorem rfindQ_eq_none_iff (s : List Char) : rfindQ s = none ↔ '"' ∉ s := by
  induction s with
  | nil => simp [rfindQ]
  | cons c t ih =>
    cases hr : rfindQ t with
    | some k =>
      simp only [rfindQ, hr]
      have : '"' ∈ t := by
        by_contra hmem
        rw [← ih] at hmem
        simp [hmem] at hr
      simp [this]
    | none =>
      simp only [rfindQ, hr]
      rw [hr] at ih
      by_cases hc : c = '"'
      · simp [hc]
      · simp only [if_neg hc]
        have ht : '"' ∉ t := ih.mp rfl
        have hcq : ¬ ('"' : Char) = c := fun hq => hc hq.symm
        simp [List.mem_cons, ht, hcq]

/-- `rfindQ` returns the position of a quote after which no quote
follows. -/
theorem rfindQ_sound {s : List Char} {k : Nat} (h : rfindQ s = some k) :
    s.get? k = some '"' ∧ ∀ j, k < j → s.get? j ≠ some '"' := by
  induction s generalizing k with
  | nil => simp [rfindQ] at h
  | cons c t ih =>
    cases hr : rfindQ t with
    | some m =>
      rw [rfindQ, hr] at h
      have hk : k = m + 1 := by simpa using h.symm
      subst hk
      obtain ⟨ihm, ihlast⟩ := ih hr
      refine ⟨by simpa using ihm, ?_⟩
      intro j hj
      match j with
      | jj + 1 =>
        simpa using ihlast jj (by omega)
    | none =>
      rw [rfindQ, hr] at h
      by_cases hc : c = '"'
      · rw [if_pos hc] at h
        have hk : k = 0 := by simpa using h.symm
        subst hk
        refine ⟨by simp [hc], ?_⟩
        intro j hj
        match j with
        | jj + 1 =>
          simp only [List.get?_cons_succ]
          intro hget
          exact ((rfindQ_eq_none_iff t).mp hr) (List.get?_mem hget)
      · rw [if_neg hc] at h
        simp at h

/-- Claim C2.  For every payload that (after stripping) starts with an
open brace but does not end with a close brace, the truncation repair
yields the prefix ending at the last double quote — a position holding a
quote with no quote after it — with a single close brace appended,
provided that position is greater than 0; with no quote at a positive
position the string is unchanged, and payloads not of this shape are
unchanged by this step. -/
theorem claim_C2 (s : List Char) :
    ((headIsOpen s ∧ ¬ lastIsClose s) →
      (∀ i, 0 < i → s.get? i = some '"' →
        (∀ j, j < s.length → i < j → s.get? j ≠ some '"') →
        fixTruncation s = s.take (i + 1) ++ ['}']) ∧
      ((∀ i, i < s.length → 0 < i → s.get? i ≠ some '"') → fixTruncation s = s)) ∧
    (¬ (headIsOpen s ∧ ¬ lastIsClose s) → fixTruncation s = s) := by
  constructor
  · intro hshape
    constructor
    · intro i hi hq hlast
      unfold fixTruncation
      rw [if_pos hshape]
      split
      next k heq =>
        obtain ⟨hqk, hklast⟩ := rfindQ_sound heq
        have hik : i = k := by
          rcases Nat.lt_trichotomy i k with hlt | hik | hgt
          · obtain ⟨hkl, -⟩ := List.get?_eq_some.mp hqk
            exact absurd hqk (hlast k hkl hlt)
          · exact hik
          · exact absurd hq (hklast i hgt)
        subst hik
        rw [if_pos hi]
      next heq =>
        exact absurd (List.get?_mem hq) ((rfindQ_eq_none_iff s).mp heq)
    · intro hnone
      unfold fixTruncation
      rw [if_pos hshape]
      split
      next k heq =>
        obtain ⟨hqk, -⟩ := rfindQ_sound heq
        obtain ⟨hkl, -⟩ := List.get?_eq_some.mp hqk
        by_cases hk : 0 < k
        · exact absurd hqk (hnone k hkl hk)
        · rw [if_neg hk]
      next heq => rfl
  · intro hshape
    unfold fixTruncation
    rw [if_neg hshape]

/-- Claim C2, witness: `\x7b"a` is repaired by cutting at the quote in
position 1 and closing; `\x7b a` (no quote) and `x` (wrong shape) are
unchanged. -/
theorem claim_C2_witness :
    fixTruncation ['{', '"', 'a'] = ['{', '"', '}'] ∧
    fixTruncation ['{', 'a'] = ['{', 'a'] ∧
    fixTruncation ['x'] = ['x'] := by
  refine ⟨?_, ?_, ?_⟩
  · exact ((claim_C2 ['{', '"', 'a']).1 (by decide)).1 1 (by decide) (by decide) (by decide)
  · exact ((claim_C2 ['{', 'a']).1 (by decide)).2 (by decide)
  · exact (claim_C2 ['x']).2 (by decide)

/-- Parser-fidelity check: a nested array is valid JSON and parses (the
program then raises `AttributeError` at `.items()` rather than taking
the placeholder path). -/
theorem jsonLoads_nested_arr :
    jsonLoads "[[0]]".data = .ok (Json.arr [Json.arr [Json.int 0]]) := rfl

/-- Parser-fidelity check: a deeply nested value inside a skills object
parses; the non-numeric score is stored as the int 0, not as a
parse-error placeholder. -/
theorem processRow_nested_value :
    processRow (.str "Carol") (.str "\x7b\"a\":[[[[[[[[0]]]]]]]]\x7d") =
      .ok ([⟨"Carol", "a", PyNum.pyInt 0⟩], []) := rfl

/-- Claim C4.  When a payload fails to parse, an attorney whose stripped
name is not Hugh Kerr or Jeremy Budd gets exactly one warning and one
placeholder row with skill `Data Parsing Error` and score 0, while for
Hugh Kerr or Jeremy Budd the failure produces no warning and no row. -/
theorem claim_C4 (nm s : String)
    (hfail : jsonLoads (repair s.data) = .error ()) :
    (¬ (stripS nm = "Hugh Kerr" ∨ stripS nm = "Jeremy Budd") →
      processRow (.str nm) (.str s) = .ok ([placeholderRow (stripS nm)], [stripS nm])) ∧
    ((stripS nm = "Hugh Kerr" ∨ stripS nm = "Jeremy Budd") →
      processRow (.str nm) (.str s) = .ok ([], [])) := by
  constructor <;> intro hname <;> simp [processRow, hfail, hname]

/-- Claim C4, witness: the unparseable payload `notjson` yields the
placeholder and warning for Alice and a silent skip for Hugh Kerr. -/
theorem claim_C4_witness :
    jsonLoads (repair "notjson".data) = .error () ∧
    processRow (.str "Alice") (.str "notjson") = .ok ([placeholderRow "Alice"], ["Alice"]) ∧
    processRow (.str "Hugh Kerr") (.str "notjson") = .ok ([], []) := by
  have hfail : jsonLoads (repair "notjson".data) = .error () := rfl
  exact ⟨hfail, (claim_C4 "Alice" "notjson" hfail).1 (by decide),
    (claim_C4 "Hugh Kerr" "notjson" hfail).2 (Or.inl rfl)⟩

/-- Claim C7.  `load_and_process_data` maps every failure to the empty
result: a missing CSV file, and any exception escaping the per-row
handler, discard all rows processed so far and return an empty table
with an empty stats dict; in particular a row whose payload cell is not
a string (so `.strip()` raises `AttributeError`) and a row whose payload
parses to a non-dict value (so `.items()` raises `AttributeError`) abort
the whole load, since the per-row handler catches neither. -/
theorem claim_C7 (input : Option (List (Cell × Cell))) :
    ((input = none ∨ ∃ csv e, input = some csv ∧ processAllRows csv = .error e) →
      loadAndProcessData input = ([], [])) ∧
    (∀ csv rc, input = some csv → rc ∈ csv → rc.2 = Cell.nonStr →
      processAllRows csv = .error PyErr.attributeError) ∧
    (∀ csv nmr s v, input = some csv → (Cell.str nmr, Cell.str s) ∈ csv →
      jsonLoads (repair s.data) = .ok v → (∀ kvs, ¬ v = Json.obj kvs) →
      processAllRows csv = .error PyErr.attributeError) := by
  refine ⟨?_, ?_, ?_⟩
  · rintro (rfl | ⟨csv, e, rfl, herr⟩)
    · rfl
    · simp [loadAndProcessData, herr]
  · rintro csv rc rfl hmem hbad
    induction csv with
    | nil => simp at hmem
    | cons hd tl ih =>
      rcases List.mem_cons.mp hmem with rfl | hmem2
      · have hrow : processRow rc.1 rc.2 = .error PyErr.attributeError := by
          rw [hbad]
          cases rc.1 <;> rfl
        simp [processAllRows, hrow]
      · have htl := ih hmem2
        cases hph : processRow hd.1 hd.2 with
        | error e =>
          cases e
          simp [processAllRows, hph]
        | ok pr =>
          simp [processAllRows, hph, htl]
  · rintro csv nmr s v rfl hmem hparse hnobj
    induction csv with
    | nil => simp at hmem
    | cons hd tl ih =>
      rcases List.mem_cons.mp hmem with heq | hmem2
      · have hrow : processRow hd.1 hd.2 = .error PyErr.attributeError := by
          rw [← heq]
          show processRow (Cell.str nmr) (Cell.str s) = .error PyErr.attributeError
          simp only [processRow]
          rw [hparse]
          cases v with
          | obj kvs => exact absurd rfl (hnobj kvs)
          | str a => rfl
          | int n => rfl
          | float q => rfl
          | bool b => rfl
          | null => rfl
          | arr l => rfl
        simp [processAllRows, hrow]
      · have htl := ih hmem2
        cases hph : processRow hd.1 hd.2 with
        | error e =>
          cases e
          simp [processAllRows, hph]
        | ok pr =>
          simp [processAllRows, hph, htl]

/-- Claim C7, witness: a missing file returns the empty result; a row
with a non-string payload cell aborts the whole load; and a payload
parsing to a non-dict (`[[0]]`, on which `.items()` raises) likewise
aborts the whole load even though it is valid JSON. -/
theorem claim_C7_witness :
    loadAndProcessData none = ([], []) ∧
    processAllRows [(Cell.str "Alice", Cell.nonStr)] = .error PyErr.attributeError ∧
    loadAndProcessData (some [(Cell.str "Alice", Cell.nonStr)]) = ([], []) ∧
    processAllRows [(Cell.str "Dana", Cell.str "[[0]]")] = .error PyErr.attributeError ∧
    loadAndProcessData (some [(Cell.str "Dana", Cell.str "[[0]]")]) = ([], []) := by
  refine ⟨(claim_C7 none).1 (Or.inl rfl), ?_, ?_, ?_, ?_⟩
  · exact (claim_C7 (some [(Cell.str "Alice", Cell.nonStr)])).2.1 _
      (Cell.str "Alice", Cell.nonStr) rfl (by simp) rfl
  · exact (claim_C7 (some [(Cell.str "Alice", Cell.nonStr)])).1 (Or.inr ⟨_, _, rfl, rfl⟩)
  · exact (claim_C7 (some [(Cell.str "Dana", Cell.str "[[0]]")])).2.2 _ "Dana" "[[0]]"
      (Json.arr [Json.arr [Json.int 0]]) rfl (by simp) rfl
      (fun kvs h => Json.noConfusion h)
  · exact (claim_C7 (some [(Cell.str "Dana", Cell.str "[[0]]")])).1 (Or.inr ⟨_, _, rfl, rfl⟩)

/-- Claim C9.  `load_and_process_data` is deterministic: identical CSV
contents produce identical tables and identical firm stats (the embedded
function reads nothing but its input), which is what makes caching its
result sound. -/
theorem claim_C9 (a b : Option (List (Cell × Cell))) (h : a = b) :
    loadAndProcessData a = loadAndProcessData b := by
  rw [h]

/-- Claim C9, witness: two runs on the same one-row CSV agree. -/
theorem claim_C9_witness :
    loadAndProcessData (some [(Cell.str "Alice", Cell.str "\x7b\"a\": 1\x7d")]) =
      loadAndProcessData (some [(Cell.str "Alice", Cell.str "\x7b\"a\": 1\x7d")]) :=
  claim_C9 (some [(Cell.str "Alice", Cell.str "\x7b\"a\": 1\x7d")])
    (some [(Cell.str "Alice", Cell.str "\x7b\"a\": 1\x7d")]) rfl

/-- The hard-coded table rows for Hugh Kerr (scores stored as floats). -/
def hughRows : List Row :=
  hughSkills.map (fun p => ⟨"Hugh Kerr", p.1, .pyFloat (p.2 : ℚ)⟩)

/-- The hard-coded table rows for Jeremy Budd (scores stored as floats). -/
def jeremyRows : List Row :=
  jeremySkills.map (fun p => ⟨"Jeremy Budd", p.1, .pyFloat (p.2 : ℚ)⟩)

/-- Rows built from a manual skill list are float-scored. -/
theorem isFloat_of_mem_manualRows {nm : String} {skills : List (String × Int)} {r : Row}
    (hr : r ∈ skills.map (fun p => (⟨nm, p.1, .pyFloat (p.2 : ℚ)⟩ : Row))) :
    isFloat r.score = true := by
  obtain ⟨p, -, rfl⟩ := List.mem_map.mp hr
  rfl

/-- `toFloatRow` fixes a list of float-scored rows. -/
theorem map_toFloatRow_of_allFloat {l : List Row} (h : ∀ r ∈ l, isFloat r.score = true) :
    l.map toFloatRow = l := by
  induction l with
  | nil => rfl
  | cons a t ih =>
    have ha : isFloat a.score = true := h a (by simp)
    have : toFloatRow a = a := by
      cases a with
      | mk att sk sc =>
        cases sc with
        | pyInt n => simp [isFloat] at ha
        | pyFloat q => rfl
    rw [List.map_cons, this, ih (fun r hr => h r (by simp [hr]))]

/-- Filtering on the attorney field commutes with the float coercion. -/
theorem filter_attorney_map_toFloat (l : List Row) (nm : String) :
    (l.map toFloatRow).filter (fun r => r.attorney = nm) =
      (l.filter (fun r => r.attorney = nm)).map toFloatRow := by
  rw [List.filter_map]
  rfl

/-- Appending one float-scored manual row and upcasting extends the rows
of its attorney by exactly that row. -/
theorem concat_manual_filter (nm : String) (q : ℚ) (sk : String) (d rs : List Row)
    (hd : d.filter (fun r => r.attorney = nm) = rs)
    (hfl : ∀ r ∈ rs, isFloat r.score = true) :
    (concatDF d [⟨nm, sk, .pyFloat q⟩]).filter (fun r => r.attorney = nm) =
      rs ++ [⟨nm, sk, .pyFloat q⟩] := by
  have hany : (d ++ [(⟨nm, sk, .pyFloat q⟩ : Row)]).any (fun r => isFloat r.score) = true := by
    simp [isFloat]
  rw [concatDF, upcast, if_pos hany, filter_attorney_map_toFloat, List.filter_append, hd]
  have hone : ([(⟨nm, sk, .pyFloat q⟩ : Row)]).filter (fun r => r.attorney = nm) =
      [⟨nm, sk, .pyFloat q⟩] := by
    simp
  rw [hone, List.map_append, map_toFloatRow_of_allFloat hfl]
  rfl

/-- Appending one manual row of a different attorney leaves another
attorney's (float-scored) rows unchanged. -/
theorem concat_manual_filter_ne (nm nm' : String) (hne : ¬ nm' = nm) (q : ℚ) (sk : String)
    (d rs : List Row)
    (hd : d.filter (fun r => r.attorney = nm') = rs)
    (hfl : ∀ r ∈ rs, isFloat r.score = true) :
    (concatDF d [⟨nm, sk, .pyFloat q⟩]).filter (fun r => r.attorney = nm') = rs := by
  have hany : (d ++ [(⟨nm, sk, .pyFloat q⟩ : Row)]).any (fun r => isFloat r.score) = true := by
    simp [isFloat]
  rw [concatDF, upcast, if_pos hany, filter_attorney_map_toFloat, List.filter_append, hd]
  have hne2 : ¬ nm = nm' := fun hq => hne hq.symm
  have hone : ([(⟨nm, sk, .pyFloat q⟩ : Row)]).filter (fun r => r.attorney = nm') = [] := by
    simp [hne2]
  rw [hone, List.append_nil, map_toFloatRow_of_allFloat hfl]

/-- Over the whole manual loop of one attorney, that attorney's rows are
the accumulated base rows followed by the hard-coded ones. -/
theorem foldl_manual_filter (nm : String) (skills : List (String × Int)) :
    ∀ (d rs : List Row),
      d.filter (fun r => r.attorney = nm) = rs →
      (∀ r ∈ rs, isFloat r.score = true) →
      (skills.foldl (fun d p => concatDF d [⟨nm, p.1, .pyFloat (p.2 : ℚ)⟩]) d).filter
          (fun r => r.attorney = nm) =
        rs ++ skills.map (fun p => ⟨nm, p.1, .pyFloat (p.2 : ℚ)⟩) := by
  induction skills with
  | nil =>
    intro d rs hd hfl
    simpa using hd
  | cons p ps ih =>
    intro d rs hd hfl
    rw [List.foldl_cons]
    have hstep := concat_manual_filter nm (p.2 : ℚ) p.1 d rs hd hfl
    have hfl2 : ∀ r ∈ rs ++ [(⟨nm, p.1, .pyFloat (p.2 : ℚ)⟩ : Row)], isFloat r.score = true := by
      intro r hr
      rcases List.mem_append.mp hr with h1 | h1
      · exact hfl r h1
      · simp at h1
        rw [h1]
        rfl
    rw [ih _ _ hstep hfl2, List.map_cons, List.append_assoc]
    rfl

/-- The manual loop of one attorney leaves a different attorney's
(float-scored) rows unchanged. -/
theorem foldl_manual_filter_ne (nm nm' : String) (hne : ¬ nm' = nm)
    (skills : List (String × Int)) :
    ∀ (d rs : List Row),
      d.filter (fun r => r.attorney = nm') = rs →
      (∀ r ∈ rs, isFloat r.score = true) →
      (skills.foldl (fun d p => concatDF d [⟨nm, p.1, .pyFloat (p.2 : ℚ)⟩]) d).filter
          (fun r => r.attorney = nm') = rs := by
  induction skills with
  | nil =>
    intro d rs hd hfl
    simpa using hd
  | cons p ps ih =>
    intro d rs hd hfl
    rw [List.foldl_cons]
    exact ih _ _ (concat_manual_filter_ne nm nm' hne (p.2 : ℚ) p.1 d rs hd hfl) hfl

/-- Dropping an attorney's rows leaves none of them. -/
theorem filter_not_attorney (nm : String) (l : List Row) :
    (l.filter (fun r => ¬ r.attorney = nm)).filter (fun r => r.attorney = nm) = [] := by
  rw [List.filter_eq_nil_iff]
  intro r hr
  have := (List.mem_filter.mp hr).2
  simp at this
  simp [this]

/-- Dropping one attorney's rows does not disturb another attorney's. -/
theorem filter_attorney_of_filter_ne (nm nm' : String) (hne : ¬ nm' = nm) (l : List Row) :
    (l.filter (fun r => ¬ r.attorney = nm)).filter (fun r => r.attorney = nm') =
      l.filter (fun r => r.attorney = nm') := by
  induction l with
  | nil => rfl
  | cons a t ih =>
    by_cases h2 : a.attorney = nm
    · have ha : ¬ a.attorney = nm' := by
        rw [h2]
        intro hq
        exact hne hq.symm
      rw [List.filter_cons_of_neg (by simp [h2]), List.filter_cons_of_neg (by simp [ha]), ih]
    · rw [List.filter_cons_of_pos (by simp [h2])]
      by_cases ha : a.attorney = nm'
      · rw [List.filter_cons_of_pos (by simp [ha]), List.filter_cons_of_pos (by simp [ha]), ih]
      · rw [List.filter_cons_of_neg (by simp [ha]), List.filter_cons_of_neg (by simp [ha]), ih]

/-- The manual insertion for one attorney makes their rows exactly the
hard-coded ones. -/
theorem addManualRows_filter_same (df : List Row) (nm : String)
    (skills : List (String × Int)) :
    (addManualRows df nm skills).filter (fun r => r.attorney = nm) =
      skills.map (fun p => ⟨nm, p.1, .pyFloat (p.2 : ℚ)⟩) := by
  simp only [addManualRows]
  have h := foldl_manual_filter nm skills
    (df.filter (fun r => ¬ r.attorney = nm)) []
    (filter_not_attorney nm df) (by simp)
  rw [List.nil_append] at h
  exact h

/-- The manual insertion for one attorney leaves another attorney's
(float-scored) rows unchanged. -/
theorem addManualRows_filter_ne (df : List Row) (nm nm' : String) (hne : ¬ nm' = nm)
    (skills : List (String × Int)) (rs : List Row)
    (hd : df.filter (fun r => r.attorney = nm') = rs)
    (hfl : ∀ r ∈ rs, isFloat r.score = true) :
    (addManualRows df nm skills).filter (fun r => r.attorney = nm') = rs := by
  simp only [addManualRows]
  refine foldl_manual_filter_ne nm nm' hne skills _ rs ?_ hfl
  rw [filter_attorney_of_filter_ne nm nm' hne, hd]

/-- After both manual insertions, Hugh Kerr's rows are exactly the
hard-coded ones, and likewise Jeremy Budd's. -/
theorem applyManual_filter_spec (df : List Row) :
    (applyManual df).filter (fun r => r.attorney = "Hugh Kerr") = hughRows ∧
    (applyManual df).filter (fun r => r.attorney = "Jeremy Budd") = jeremyRows := by
  have happ : applyManual df =
      addManualRows (addManualRows df "Hugh Kerr" hughSkills) "Jeremy Budd" jeremySkills := by
    simp only [applyManual, manualAttorneys, List.foldl_cons, List.foldl_nil]
  constructor
  · rw [happ]
    exact addManualRows_filter_ne _ "Jeremy Budd" "Hugh Kerr" (by decide) jeremySkills hughRows
      (addManualRows_filter_same df "Hugh Kerr" hughSkills)
      (fun r hr => isFloat_of_mem_manualRows hr)
  · rw [happ]
    exact addManualRows_filter_same _ "Jeremy Budd" jeremySkills

/-- Claim C3.  The manual override list has exactly the two records Hugh
Kerr and Jeremy Budd; whenever loading succeeds, every parsed row for
these two names is removed and replaced by the hard-coded entries, so
the returned table holds exactly the 28 hard-coded rows for Hugh Kerr
and the 16 for Jeremy Budd, regardless of their CSV payloads (and even
when the CSV had no row for them). -/
theorem claim_C3 (csv : List (Cell × Cell)) (data : List Row) (warns : List String)
    (hok : processAllRows csv = .ok (data, warns)) (hne : ¬ data = []) :
    manualAttorneys.map Prod.fst = ["Hugh Kerr", "Jeremy Budd"] ∧
    (loadAndProcessData (some csv)).1.filter (fun r => r.attorney = "Hugh Kerr") = hughRows ∧
    (loadAndProcessData (some csv)).1.filter (fun r => r.attorney = "Jeremy Budd") = jeremyRows ∧
    hughRows.length = 28 ∧ jeremyRows.length = 16 := by
  have hload : (loadAndProcessData (some csv)).1 = applyManual (mkDF data) := by
    simp [loadAndProcessData, hok, hne]
  refine ⟨rfl, ?_, ?_, rfl, rfl⟩
  · rw [hload]
    exact (applyManual_filter_spec (mkDF data)).1
  · rw [hload]
    exact (applyManual_filter_spec (mkDF data)).2

/-- Claim C3, witness: loading a one-row CSV for Alice succeeds, and the
returned table's Hugh Kerr and Jeremy Budd rows are exactly the
hard-coded 28 and 16. -/
theorem claim_C3_witness :
    ((loadAndProcessData (some [(Cell.str "Alice", Cell.str "\x7b\"a\": 1\x7d")])).1.filter
        (fun r => r.attorney = "Hugh Kerr") = hughRows) ∧
    ((loadAndProcessData (some [(Cell.str "Alice", Cell.str "\x7b\"a\": 1\x7d")])).1.filter
        (fun r => r.attorney = "Jeremy Budd") = jeremyRows) ∧
    hughRows.length = 28 ∧ jeremyRows.length = 16 := by
  have h := claim_C3 [(Cell.str "Alice", Cell.str "\x7b\"a\": 1\x7d")]
    [⟨"Alice", "a", PyNum.pyFloat 1⟩] [] rfl (by simp)
  exact ⟨h.2.1, h.2.2.1, h.2.2.2.1, h.2.2.2.2⟩

/-- Spec-side conversion of claim C8: an int (Python bools included: they
are ints, so `float(True)` is `1.0`), a float, or a float-convertible
string is stored as its float value; every other value as 0. -/
def scoreSpec : Json → ℚ
  | .int n => (n : ℚ)
  | .float q => q
  | .bool b => if b then 1 else 0
  | .str s =>
    match pyFloatOfStr s.data with
    | some q => q
    | none => 0
  | _ => 0

/-- Appending a float-scored frame forces the whole column to float. -/
theorem concatDF_float_allFloat (d : List Row) (r : Row) (hr : isFloat r.score = true) :
    ∀ x ∈ concatDF d [r], isFloat x.score = true := by
  intro x hx
  rw [concatDF, upcast, if_pos (by simp [hr])] at hx
  obtain ⟨y, -, rfl⟩ := List.mem_map.mp hx
  rfl

/-- The manual loop keeps every score float once it starts appending. -/
theorem foldl_concat_preserves_allFloat (nm : String) (skills : List (String × Int)) :
    ∀ d : List Row, (∀ x ∈ d, isFloat x.score = true) →
      ∀ x ∈ skills.foldl (fun d p => concatDF d [⟨nm, p.1, .pyFloat (p.2 : ℚ)⟩]) d,
        isFloat x.score = true := by
  induction skills with
  | nil =>
    intro d hd
    exact hd
  | cons p ps ih =>
    intro d hd
    rw [List.foldl_cons]
    exact ih _ (concatDF_float_allFloat d _ rfl)

/-- A nonempty manual skill list makes every resulting score float. -/
theorem addManualRows_allFloat (df : List Row) (nm : String) (p0 : String × Int)
    (ps : List (String × Int)) :
    ∀ x ∈ addManualRows df nm (p0 :: ps), isFloat x.score = true := by
  simp only [addManualRows, List.foldl_cons]
  exact foldl_concat_preserves_allFloat nm ps _ (concatDF_float_allFloat _ _ rfl)

/-- After the manual additions every Score in the table is a float. -/
theorem applyManual_allFloat (df : List Row) :
    ∀ x ∈ applyManual df, isFloat x.score = true := by
  have happ : applyManual df =
      addManualRows (addManualRows df "Hugh Kerr" hughSkills) "Jeremy Budd" jeremySkills := by
    simp only [applyManual, manualAttorneys, List.foldl_cons, List.foldl_nil]
  rw [happ, jeremySkills]
  exact addManualRows_allFloat _ "Jeremy Budd" _ _

/-- The cleaned score's value matches the claimed conversion table. -/
theorem val_scoreClean (v : Json) : val (scoreClean v) = scoreSpec v := by
  cases v with
  | str s =>
    simp only [scoreClean, isIntFloatStr, if_pos, pyFloatOfJson, scoreSpec]
    cases pyFloatOfStr s.data <;> rfl
  | int n => rfl
  | float q => rfl
  | bool b => rfl
  | null => rfl
  | arr l => rfl
  | obj l => rfl

/-- Claim C8.  Every Score value in the table returned on a successful
load is a Python float (the mixed int/float column and the concatenation
with the float-scored manual rows upcast it), and the per-value
conversion stores an int, float, or float-convertible string as its
float value and every other parsed value as 0. -/
theorem claim_C8 (csv : List (Cell × Cell)) (data : List Row) (warns : List String)
    (hok : processAllRows csv = .ok (data, warns)) (hne : ¬ data = []) :
    (∀ r ∈ (loadAndProcessData (some csv)).1, ∃ q, r.score = PyNum.pyFloat q) ∧
    (∀ v : Json, val (scoreClean v) = scoreSpec v) := by
  have hload : (loadAndProcessData (some csv)).1 = applyManual (mkDF data) := by
    simp [loadAndProcessData, hok, hne]
  refine ⟨?_, val_scoreClean⟩
  intro r hr
  rw [hload] at hr
  have := applyManual_allFloat (mkDF data) r hr
  cases hsc : r.score with
  | pyInt n =>
    rw [hsc] at this
    simp [isFloat] at this
  | pyFloat q => exact ⟨q, rfl⟩

set_option maxRecDepth 40000 in
/-- Claim C8, witness: on a concrete successful load, the Alice row is
float-scored, and concrete conversions follow the table (a numeric
string parses, a null stores 0). -/
theorem claim_C8_witness :
    (∃ q, (⟨"Alice", "a", PyNum.pyFloat 1⟩ : Row).score = PyNum.pyFloat q) ∧
    val (scoreClean (Json.str "2.5")) = scoreSpec (Json.str "2.5") ∧
    val (scoreClean Json.null) = scoreSpec Json.null := by
  have h := claim_C8 [(Cell.str "Alice", Cell.str "\x7b\"a\": 1\x7d")]
    [⟨"Alice", "a", PyNum.pyFloat 1⟩] [] rfl (by simp)
  exact ⟨h.1 ⟨"Alice", "a", PyNum.pyFloat 1⟩ (by decide), h.2 (Json.str "2.5"), h.2 Json.null⟩

/-- The Score values of one skill's rows in a frame, in order. -/
def scoresFor (df : List Row) (sk : String) : List ℚ :=
  (df.filter (fun r => r.skill = sk)).map (fun r => val r.score)

/-- The score list held for a key by the grouping dict (empty when the
key is absent). -/
def lookupScores (m : List (String × List ℚ)) (sk : String) : List ℚ :=
  ((m.find? (fun p => p.1 == sk)).map Prod.snd).getD []

/-- `find?` commutes with a key-preserving update of the entries. -/
theorem find?_map_keyfix (f : (String × List ℚ) → (String × List ℚ))
    (hf : ∀ p, (f p).1 = p.1) (m : List (String × List ℚ)) (sk : String) :
    (m.map f).find? (fun p => p.1 == sk) =
      (m.find? (fun p => p.1 == sk)).map f := by
  induction m with
  | nil => rfl
  | cons p t ih =>
    cases h : (p.1 == sk) with
    | true => simp [List.find?, hf, h]
    | false => simp [List.find?, hf, h, ih]

/-- Appending a fresh entry at the end: looking its key up finds it when
no earlier entry has that key. -/
theorem find?_append_fresh (m : List (String × List ℚ)) (sk : String) (l : List ℚ)
    (habs : ∀ p ∈ m, (p.1 == sk) = false) :
    (m ++ [(sk, l)]).find? (fun p => p.1 == sk) = some (sk, l) := by
  induction m with
  | nil => simp [List.find?]
  | cons q t ih =>
    have hq : (q.1 == sk) = false := habs q (by simp)
    have ht : ∀ p ∈ t, (p.1 == sk) = false := fun p hp => habs p (by simp [hp])
    simpa [List.find?, hq] using ih ht

/-- Appending an entry of a different key does not change a lookup. -/
theorem find?_append_other (m : List (String × List ℚ)) (sk0 sk : String) (l : List ℚ)
    (hne : ¬ sk = sk0) :
    (m ++ [(sk0, l)]).find? (fun p => p.1 == sk) = m.find? (fun p => p.1 == sk) := by
  induction m with
  | nil =>
    have : (sk0 == sk) = false := by
      simp only [beq_eq_false_iff_ne, ne_eq]
      intro h
      exact hne h.symm
    simp [List.find?, this]
  | cons q t ih =>
    cases hq : (q.1 == sk) with
    | true => simp [List.find?, hq]
    | false => simpa [List.find?, hq] using ih

/-- The dict update appends the score to the key's list (which starts
empty when the key is new). -/
theorem addScoreG_lookup (m : List (String × List ℚ)) (sk0 : String) (sc : ℚ) (sk : String) :
    lookupScores (addScoreG m sk0 sc) sk =
      lookupScores m sk ++ (if sk = sk0 then [sc] else []) := by
  by_cases hin : m.any (fun p => p.1 == sk0) = true
  · rw [addScoreG, if_pos hin]
    rw [lookupScores,
      find?_map_keyfix (fun p => if p.1 == sk0 then (p.1, p.2 ++ [sc]) else p)
        (fun p => by by_cases h : (p.1 == sk0) = true <;> simp [h])]
    cases hf : m.find? (fun p => p.1 == sk) with
    | none =>
      by_cases hsk : sk = sk0
      · obtain ⟨p, hp, hpt⟩ := List.any_eq_true.mp hin
        have hsome : (m.find? (fun p => p.1 == sk)).isSome := by
          rw [List.find?_isSome]
          refine ⟨p, hp, ?_⟩
          rw [hsk]
          exact hpt
        rw [hf] at hsome
        simp at hsome
      · simp [lookupScores, hf, hsk]
    | some p =>
      have hpk : (p.1 == sk) = true := by
        have := List.find?_some hf
        simpa using this
      by_cases hsk : sk = sk0
      · have hpk0 : (p.1 == sk0) = true := by
          rw [← hsk]
          exact hpk
        simp only [Option.map_some', hpk0, if_true, Option.getD_some]
        rw [lookupScores, hf, if_pos hsk]
        rfl
      · have hnk : (p.1 == sk0) = false := by
          have hp1 : p.1 = sk := by simpa using hpk
          simp only [beq_eq_false_iff_ne, ne_eq, hp1]
          exact hsk
        simp only [Option.map_some', hnk]
        simp [lookupScores, hf, hsk]
  · rw [addScoreG, if_neg hin]
    have habs : ∀ p ∈ m, (p.1 == sk0) = false := by
      intro p hp
      by_contra hb
      have hb2 : (p.1 == sk0) = true := by
        cases hx : (p.1 == sk0) with
        | true => rfl
        | false => exact absurd hx hb
      exact hin (List.any_eq_true.mpr ⟨p, hp, hb2⟩)
    by_cases hsk : sk = sk0
    · have hnone : m.find? (fun p => p.1 == sk) = none := by
        rw [List.find?_eq_none]
        intro p hp
        have := habs p hp
        rw [hsk]
        simp only [this]
        exact Bool.false_ne_true
      have hfind : (m ++ [(sk0, [sc])]).find? (fun p => p.1 == sk) = some (sk0, [sc]) := by
        rw [hsk]
        exact find?_append_fresh m sk0 [sc] habs
      rw [lookupScores, lookupScores, hfind, hnone]
      simp [hsk]
    · rw [lookupScores, lookupScores, find?_append_other m sk0 sk [sc] hsk]
      simp [hsk]

/-- Updating entries in place does not change the key list. -/
theorem map_fst_upd (m : List (String × List ℚ)) (sk0 : String) (sc : ℚ) :
    (m.map (fun p => if p.1 == sk0 then (p.1, p.2 ++ [sc]) else p)).map Prod.fst =
      m.map Prod.fst := by
  induction m with
  | nil => rfl
  | cons q t ih =>
    simp only [List.map_cons, ih]
    congr 1
    by_cases h : (q.1 == sk0) = true
    · simp [h]
    · simp [h]

/-- The dict update preserves distinctness of the keys. -/
theorem addScoreG_keys_nodup (m : List (String × List ℚ)) (sk0 : String) (sc : ℚ)
    (hnd : (m.map Prod.fst).Nodup) :
    ((addScoreG m sk0 sc).map Prod.fst).Nodup := by
  by_cases hin : m.any (fun p => p.1 == sk0) = true
  · rw [addScoreG, if_pos hin]
    rw [map_fst_upd]
    exact hnd
  · rw [addScoreG, if_neg hin]
    have hnot : sk0 ∉ m.map Prod.fst := by
      intro hmem
      obtain ⟨p, hp, hpe⟩ := List.mem_map.mp hmem
      exact hin (List.any_eq_true.mpr ⟨p, hp, by simp [hpe]⟩)
    rw [List.map_append]
    exact List.Nodup.append hnd (List.nodup_singleton sk0)
      (List.disjoint_singleton.mpr hnot)

/-- The dict update keeps every entry nonempty. -/
theorem addScoreG_entries_ne_nil (m : List (String × List ℚ)) (sk0 : String) (sc : ℚ)
    (hne : ∀ p ∈ m, p.2 ≠ []) :
    ∀ p ∈ addScoreG m sk0 sc, p.2 ≠ [] := by
  intro p hp
  rw [addScoreG] at hp
  split_ifs at hp with hin
  · obtain ⟨q, hq, rfl⟩ := List.mem_map.mp hp
    by_cases h : (q.1 == sk0) = true
    · simp [h]
    · simp only [h]
      simp only [if_false, Bool.false_eq_true, if_neg]
      exact hne q hq
  · rcases List.mem_append.mp hp with h1 | h1
    · exact hne p h1
    · simp only [List.mem_singleton] at h1
      rw [h1]
      simp

/-- The grouping fold over rows: keys stay distinct, entries stay
nonempty, and each key's list equals the Score values of that skill's
rows processed so far. -/
theorem foldl_addScoreG_spec (l : List Row) :
    ∀ (m : List (String × List ℚ)) (pref : List Row),
      (m.map Prod.fst).Nodup →
      (∀ p ∈ m, p.2 ≠ []) →
      (∀ sk, lookupScores m sk = scoresFor pref sk) →
      (((l.foldl (fun m r => addScoreG m r.skill (val r.score)) m).map Prod.fst).Nodup ∧
       (∀ p ∈ l.foldl (fun m r => addScoreG m r.skill (val r.score)) m, p.2 ≠ []) ∧
       (∀ sk, lookupScores (l.foldl (fun m r => addScoreG m r.skill (val r.score)) m) sk =
          scoresFor (pref ++ l) sk)) := by
  induction l with
  | nil =>
    intro m pref h1 h2 h3
    exact ⟨h1, h2, by simpa using h3⟩
  | cons r t ih =>
    intro m pref h1 h2 h3
    rw [List.foldl_cons]
    have h3s : ∀ sk, lookupScores (addScoreG m r.skill (val r.score)) sk =
        scoresFor (pref ++ [r]) sk := by
      intro sk
      have hsp : scoresFor (pref ++ [r]) sk =
          scoresFor pref sk ++ (if sk = r.skill then [val r.score] else []) := by
        rw [scoresFor, List.filter_append, List.map_append]
        congr 1
        by_cases hs : r.skill = sk
        · rw [if_pos hs.symm]
          simp [hs]
        · rw [if_neg (fun h => hs h.symm)]
          simp [hs]
      rw [addScoreG_lookup, h3 sk, hsp]
    have := ih (addScoreG m r.skill (val r.score)) (pref ++ [r])
      (addScoreG_keys_nodup _ _ _ h1) (addScoreG_entries_ne_nil _ _ _ h2) h3s
    simpa [List.append_assoc] using this

/-- `all_skills_final` as rebuilt from the frame: distinct keys,
nonempty entries, and each key's list is that skill's Score column. -/
theorem allSkillsFinal_spec (df : List Row) :
    ((allSkillsFinal df).map Prod.fst).Nodup ∧
    (∀ p ∈ allSkillsFinal df, p.2 ≠ []) ∧
    (∀ sk, lookupScores (allSkillsFinal df) sk = scoresFor df sk) := by
  have := foldl_addScoreG_spec df [] [] (by simp) (by simp) (fun sk => rfl)
  simpa using this

/-- The keys of the grouping dict are exactly the distinct skills of the
frame. -/
theorem mem_keys_allSkillsFinal (df : List Row) (sk : String) :
    sk ∈ (allSkillsFinal df).map Prod.fst ↔ sk ∈ df.map Row.skill := by
  obtain ⟨-, hne, hlk⟩ := allSkillsFinal_spec df
  constructor
  · intro hmem
    obtain ⟨p, hp, hpe⟩ := List.mem_map.mp hmem
    have hfind : ((allSkillsFinal df).find? (fun q => q.1 == sk)).isSome := by
      rw [List.find?_isSome]
      exact ⟨p, hp, by simp [hpe]⟩
    obtain ⟨e, he⟩ := Option.isSome_iff_exists.mp hfind
    have hene : e.2 ≠ [] := hne e (List.mem_of_find?_eq_some he)
    have hsne : scoresFor df sk ≠ [] := by
      rw [← hlk sk, lookupScores, he]
      simpa using hene
    rw [scoresFor] at hsne
    have hfne : df.filter (fun r => r.skill = sk) ≠ [] := by
      intro hnil
      rw [hnil] at hsne
      exact hsne rfl
    obtain ⟨r, hr⟩ := List.exists_mem_of_ne_nil _ hfne
    have hrm := List.mem_filter.mp hr
    exact List.mem_map.mpr ⟨r, hrm.1, by simpa using hrm.2⟩
  · intro hmem
    obtain ⟨r, hr, hre⟩ := List.mem_map.mp hmem
    have hfil : r ∈ df.filter (fun q => q.skill = sk) :=
      List.mem_filter.mpr ⟨hr, by simp [hre]⟩
    have hsne : scoresFor df sk ≠ [] := by
      rw [scoresFor]
      intro hnil
      rw [List.map_eq_nil] at hnil
      rw [hnil] at hfil
      exact List.not_mem_nil r hfil
    rw [← hlk sk] at hsne
    cases hfe : (allSkillsFinal df).find? (fun q => q.1 == sk) with
    | none =>
      rw [lookupScores, hfe] at hsne
      simp at hsne
    | some e =>
      have hek : (e.1 == sk) = true := by
        have := List.find?_some hfe
        simpa using this
      exact List.mem_map.mpr ⟨e, List.mem_of_find?_eq_some hfe, by simpa using hek⟩

/-- The aggregate record of a score list (`np.mean`, `max`, `min`,
`len`); junk on the empty list, which the guard rules out. -/
def mkStats (l : List ℚ) : SkillStats :=
  match l with
  | [] => ⟨0, 0, 0, 0⟩
  | h :: t => ⟨(h :: t).sum / ((h :: t).length : ℚ), t.foldl max h, t.foldl min h, (h :: t).length⟩

/-- With every entry nonempty, the stats map is a plain map over the
grouping dict. -/
theorem firmStats_eq_map (df : List Row) :
    firmStats df = (allSkillsFinal df).map (fun p => (p.1, mkStats p.2)) := by
  obtain ⟨-, hne, -⟩ := allSkillsFinal_spec df
  rw [firmStats]
  revert hne
  generalize allSkillsFinal df = m
  intro hne
  induction m with
  | nil => rfl
  | cons p t ih =>
    have hp2 : p.2 ≠ [] := hne p (by simp)
    obtain ⟨h, t2, hpe⟩ := List.exists_cons_of_ne_nil hp2
    have hsome : (statsOf p.2).map (fun st => (p.1, st)) = some (p.1, mkStats p.2) := by
      rw [hpe]
      rfl
    rw [List.filterMap_cons, hsome, List.map_cons]
    have := ih (fun q hq => hne q (by simp [hq]))
    rw [this]

/-- With distinct keys, a member entry is what lookup finds. -/
theorem find?_eq_some_of_mem {β : Type} {m : List (String × β)}
    (hnd : (m.map Prod.fst).Nodup) {k : String} {b : β} (hmem : (k, b) ∈ m) :
    m.find? (fun p => p.1 == k) = some (k, b) := by
  induction m with
  | nil => simp at hmem
  | cons q t ih =>
    rw [List.map_cons, List.nodup_cons] at hnd
    rcases List.mem_cons.mp hmem with heq | hm
    · rw [← heq]
      simp [List.find?]
    · have hkt : k ∈ t.map Prod.fst := List.mem_map.mpr ⟨(k, b), hm, rfl⟩
      have hq : (q.1 == k) = false := by
        simp only [beq_eq_false_iff_ne, ne_eq]
        intro hqe
        rw [hqe] at hnd
        exact hnd.1 hkt
      simp only [List.find?, hq]
      exact ih hnd.2 hm

/-- The left fold of `max` computes an element of the list that bounds
every element from above (the behaviour of Python `max`). -/
theorem foldl_max_spec (h : ℚ) (t : List ℚ) :
    t.foldl max h ∈ h :: t ∧ ∀ x ∈ h :: t, x ≤ t.foldl max h := by
  induction t generalizing h with
  | nil => simp
  | cons a t ih =>
    rw [List.foldl_cons]
    obtain ⟨ih1, ih2⟩ := ih (max h a)
    constructor
    · rcases List.mem_cons.mp ih1 with he | hm
      · rcases max_choice h a with hc | hc
        · rw [he, hc]
          simp
        · rw [he, hc]
          simp
      · simp [hm]
    · intro x hx
      rcases List.mem_cons.mp hx with rfl | hx2
      · exact le_trans (le_max_left x a) (ih2 (max x a) (by simp))
      · rcases List.mem_cons.mp hx2 with rfl | hx3
        · exact le_trans (le_max_right h x) (ih2 (max h x) (by simp))
        · exact ih2 x (by simp [hx3])

/-- The left fold of `min` computes an element of the list that bounds
every element from below (the behaviour of Python `min`). -/
theorem foldl_min_spec (h : ℚ) (t : List ℚ) :
    t.foldl min h ∈ h :: t ∧ ∀ x ∈ h :: t, t.foldl min h ≤ x := by
  induction t generalizing h with
  | nil => simp
  | cons a t ih =>
    rw [List.foldl_cons]
    obtain ⟨ih1, ih2⟩ := ih (min h a)
    constructor
    · rcases List.mem_cons.mp ih1 with he | hm
      · rcases min_choice h a with hc | hc
        · rw [he, hc]
          simp
        · rw [he, hc]
          simp
      · simp [hm]
    · intro x hx
      rcases List.mem_cons.mp hx with rfl | hx2
      · exact le_trans (ih2 (min x a) (by simp)) (min_le_left x a)
      · rcases List.mem_cons.mp hx2 with rfl | hx3
        · exact le_trans (ih2 (min h x) (by simp)) (min_le_right h x)
        · exact ih2 x (by simp [hx3])

/-- Turning entries into stats does not change the key list. -/
theorem map_fst_mkStats (m : List (String × List ℚ)) :
    (m.map (fun p => (p.1, mkStats p.2))).map Prod.fst = m.map Prod.fst := by
  induction m with
  | nil => rfl
  | cons p t ih => simp [ih]

/-- Claim C5.  On a successful load, `firm_stats` has exactly one entry
per distinct Skill of the final table (computed after the manual
additions), and each entry holds the arithmetic mean, the maximum, the
minimum, and the count of that skill's Score values. -/
theorem claim_C5 (csv : List (Cell × Cell)) (data : List Row) (warns : List String)
    (hok : processAllRows csv = .ok (data, warns)) (hne : ¬ data = []) :
    ((loadAndProcessData (some csv)).2.map Prod.fst).Nodup ∧
    (∀ sk, sk ∈ (loadAndProcessData (some csv)).2.map Prod.fst ↔
      sk ∈ (loadAndProcessData (some csv)).1.map Row.skill) ∧
    (∀ sk s, (sk, s) ∈ (loadAndProcessData (some csv)).2 →
      scoresFor (loadAndProcessData (some csv)).1 sk ≠ [] ∧
      s.count = (scoresFor (loadAndProcessData (some csv)).1 sk).length ∧
      s.avgScore = (scoresFor (loadAndProcessData (some csv)).1 sk).sum /
        ((scoresFor (loadAndProcessData (some csv)).1 sk).length : ℚ) ∧
      s.maxScore ∈ scoresFor (loadAndProcessData (some csv)).1 sk ∧
      (∀ x ∈ scoresFor (loadAndProcessData (some csv)).1 sk, x ≤ s.maxScore) ∧
      s.minScore ∈ scoresFor (loadAndProcessData (some csv)).1 sk ∧
      (∀ x ∈ scoresFor (loadAndProcessData (some csv)).1 sk, s.minScore ≤ x)) := by
  have h1 : (loadAndProcessData (some csv)).1 = applyManual (mkDF data) := by
    simp [loadAndProcessData, hok, hne]
  have h2 : (loadAndProcessData (some csv)).2 = firmStats (applyManual (mkDF data)) := by
    simp [loadAndProcessData, hok, hne]
  rw [h1, h2]
  obtain ⟨hnd, hnonempty, hlk⟩ := allSkillsFinal_spec (applyManual (mkDF data))
  refine ⟨?_, ?_, ?_⟩
  · rw [firmStats_eq_map, map_fst_mkStats]
    exact hnd
  · intro sk
    rw [firmStats_eq_map, map_fst_mkStats]
    exact mem_keys_allSkillsFinal _ sk
  · intro sk s hmem
    rw [firmStats_eq_map] at hmem
    obtain ⟨⟨k, l⟩, hp, hpe⟩ := List.mem_map.mp hmem
    simp only [Prod.mk.injEq] at hpe
    obtain ⟨hk, hs⟩ := hpe
    subst hk
    subst hs
    have hfind := find?_eq_some_of_mem hnd hp
    have hscores : scoresFor (applyManual (mkDF data)) k = l := by
      rw [← hlk k, lookupScores, hfind]
      rfl
    have hlne : l ≠ [] := hnonempty (k, l) hp
    obtain ⟨h0, t0, hlc⟩ := List.exists_cons_of_ne_nil hlne
    subst hlc
    rw [hscores]
    obtain ⟨hmx1, hmx2⟩ := foldl_max_spec h0 t0
    obtain ⟨hmn1, hmn2⟩ := foldl_min_spec h0 t0
    exact ⟨by simp, rfl, rfl, hmx1, hmx2, hmn1, hmn2⟩

/-- Claim C5, witness: on a concrete successful load, the stats keys are
distinct and the skill `a` appears in the stats exactly as in the
table. -/
theorem claim_C5_witness :
    ((loadAndProcessData (some [(Cell.str "Alice", Cell.str "\x7b\"a\": 1\x7d")])).2.map
        Prod.fst).Nodup ∧
    ("a" ∈ (loadAndProcessData (some [(Cell.str "Alice", Cell.str "\x7b\"a\": 1\x7d")])).2.map
        Prod.fst ↔
      "a" ∈ (loadAndProcessData
        (some [(Cell.str "Alice", Cell.str "\x7b\"a\": 1\x7d")])).1.map Row.skill) := by
  have h := claim_C5 [(Cell.str "Alice", Cell.str "\x7b\"a\": 1\x7d")]
    [⟨"Alice", "a", PyNum.pyFloat 1⟩] [] rfl (by simp)
  exact ⟨h.1, h.2.1 "a"⟩

/-- A payload prefix that is one whole brace structure: nonempty, total
brace count zero, and every proper nonempty prefix strictly positive
(no close brace closes early and none dips below zero). -/
def dyckBalanced (l : List Char) : Prop :=
  ¬ l = [] ∧ braceDelta l = 0 ∧ ∀ n, n < l.length → 1 ≤ n → 0 < braceDelta (l.take n)

instance (l : List Char) : Decidable (dyckBalanced l) := by
  unfold dyckBalanced
  infer_instance

/-- The last element of a list is a member. -/
theorem mem_of_getLast?_eq_some {l : List Char} {c : Char} (h : l.getLast? = some c) :
    c ∈ l := by
  induction l with
  | nil => simp at h
  | cons a t ih =>
    cases t with
    | nil =>
      simp at h
      simp [h]
    | cons b t2 =>
      rw [List.getLast?_cons_cons] at h
      simp [ih h]

/-- A negative brace contribution comes only from a close brace. -/
theorem dBrace_neg {c : Char} (h : dBrace c < 0) : c = '}' := by
  by_cases h1 : c = '{'
  · rw [dBrace, if_pos h1] at h
    omega
  · by_cases h2 : c = '}'
    · exact h2
    · rw [dBrace, if_neg h1, if_neg h2] at h
      omega

/-- On a balanced structure followed by anything, the scan stops exactly
at the end of the structure. -/
theorem findEnd_append_of_dyck (obj rest : List Char)
    (hd : dyckBalanced obj) (hcb : 1 ≤ obj.count '}') :
    findEnd 0 (obj ++ rest) = some obj.length := by
  obtain ⟨hne, hdelta, hpos⟩ := hd
  rcases List.eq_nil_or_concat obj with rfl | ⟨ys, c, hobj⟩
  · exact absurd rfl hne
  rw [List.concat_eq_append] at hobj
  subst hobj
  have hdel2 : braceDelta ys + dBrace c = 0 := by
    rw [braceDelta_append] at hdelta
    simpa [braceDelta_cons, braceDelta_nil] using hdelta
  have hclast : c = '}' := by
    rcases List.eq_nil_or_concat ys with rfl | ⟨zs, b, hys⟩
    · have hc0 : dBrace c = 0 := by
        simpa [braceDelta_nil] using hdel2
      have hcne : ¬ c = '}' := by
        intro hq
        rw [dBrace, if_neg, if_pos hq] at hc0
        · omega
        · intro h1
          rw [h1] at hq
          exact absurd hq (by decide)
      simp [List.count_cons, List.count_nil, hcne] at hcb
    · rw [List.concat_eq_append] at hys
      subst hys
      have hyslen : (zs ++ [b]).length < ((zs ++ [b]) ++ [c]).length := by
        simp
      have hys1 : 1 ≤ (zs ++ [b]).length := by
        simp
      have hp := hpos (zs ++ [b]).length hyslen hys1
      rw [List.take_left] at hp
      exact dBrace_neg (by omega)
  have hclose : closesAtFrom 0 ((ys ++ [c]) ++ rest) (ys ++ [c]).length := by
    refine ⟨by simp, ?_, ?_⟩
    · have hlt : (ys ++ [c]).length - 1 < (ys ++ [c]).length := by simp
      rw [List.get?_append hlt]
      have hix : (ys ++ [c]).length - 1 = ys.length := by simp
      rw [hix, List.get?_concat_length, hclast]
    · rw [List.take_left, hdelta]
      omega
  have hmin : ∀ m, m < (ys ++ [c]).length → ¬ closesAtFrom 0 ((ys ++ [c]) ++ rest) m := by
    intro m hm hcl
    obtain ⟨hm1, -, hm3⟩ := hcl
    have htake : ((ys ++ [c]) ++ rest).take m = (ys ++ [c]).take m :=
      List.take_append_of_le_length (by omega)
    rw [htake] at hm3
    have := hpos m hm hm1
    omega
  cases hfe : findEnd 0 ((ys ++ [c]) ++ rest) with
  | none => exact absurd hclose (findEnd_none hfe _)
  | some k =>
    obtain ⟨hck, hkmin⟩ := findEnd_sound hfe
    have h1 : ¬ k < (ys ++ [c]).length := fun hlt => hmin k hlt hck
    have h2 : ¬ (ys ++ [c]).length < k := fun hlt => hkmin _ hlt hclose
    have hk : k = (ys ++ [c]).length := by omega
    rw [hk]

/-- Claim C6, counterexample.  The payload consisting of the well-formed
object `\x7b"a": 1\x7d` followed by the trailing data `xyz` is not
recovered: the truncation repair mangles it (the combined string does
not end with a close brace) and the attorney gets a Data Parsing Error
placeholder instead of the skill `a`. -/
theorem claim_C6_cex :
    jsonLoads "\x7b\"a\": 1\x7d".data = .ok (Json.obj [("a", Json.int 1)]) ∧
    processRow (.str "Alice") (.str "\x7b\"a\": 1\x7dxyz") =
      .ok ([⟨"Alice", "Data Parsing Error", PyNum.pyInt 0⟩], ["Alice"]) :=
  ⟨rfl, rfl⟩

/-- Claim C6, amended: a payload consisting of a well-formed JSON object
(one balanced brace structure, with no brace inside its strings)
followed by trailing data that ends with a close brace — a duplicated
payload in particular — is recovered: the scan cuts the payload back to
the leading object and the attorney's skills are recorded rather than
skipped as a parse error. -/
theorem claim_C6_amended (obj rest : List Char) (nm : String) (kvs : List (String × Json))
    (hstrip : stripL (obj ++ rest) = obj ++ rest)
    (hparse : jsonLoads obj = .ok (Json.obj kvs))
    (hdyck : dyckBalanced obj)
    (hcb : 1 ≤ obj.count '}')
    (hrest : rest.getLast? = some '}') :
    processRow (.str nm) (.str (String.mk (obj ++ rest))) =
      .ok (kvs.map (fun p => ⟨stripS nm, stripS p.1, scoreClean p.2⟩), []) := by
  have hrne : ¬ rest = [] := by
    intro h
    rw [h] at hrest
    simp at hrest
  have hends : lastIsClose (obj ++ rest) = true := by
    rw [lastIsClose, List.getLast?_append_of_ne_nil obj hrne, hrest]
    simp
  have hfixT : fixTruncation (obj ++ rest) = obj ++ rest := by
    rw [fixTruncation, if_neg]
    rintro ⟨-, hno⟩
    rw [hends] at hno
    exact hno rfl
  have hcount : 1 < (obj ++ rest).count '}' := by
    rw [List.count_append]
    have hrc : 0 < rest.count '}' :=
      List.count_pos_iff_mem.mpr (mem_of_getLast?_eq_some hrest)
    omega
  have hfind : findEnd 0 (obj ++ rest) = some obj.length :=
    findEnd_append_of_dyck obj rest hdyck hcb
  have hfixE : fixExtraData (obj ++ rest) = obj := by
    rw [fixExtraData, if_pos hcount, hfind]
    show List.take obj.length (obj ++ rest) = obj
    exact List.take_left obj rest
  have hrep : repair (obj ++ rest) = obj := by
    rw [repair, hstrip, hfixT, hfixE]
  simp only [processRow]
  rw [hrep, hparse]
  rfl

/-- Claim C6, witness: a duplicated payload — the object `\x7b"a": 1\x7d`
followed by a second copy — is cut back to the first object and Bob's
skill is recorded. -/
theorem claim_C6_witness :
    processRow (.str "Bob")
        (.str (String.mk ("\x7b\"a\": 1\x7d".data ++ "\x7b\"a\": 1\x7d".data))) =
      .ok ([⟨"Bob", "a", PyNum.pyFloat 1⟩], []) := by
  have h := claim_C6_amended "\x7b\"a\": 1\x7d".data "\x7b\"a\": 1\x7d".data "Bob"
    [("a", Json.int 1)] (by decide) rfl (by decide) (by decide) rfl
  exact h

/-- A row output by the per-row handler for a CSV row ends up in the
collected data when the whole loop succeeds. -/
theorem mem_data_of_processRow (csv : List (Cell × Cell)) :
    ∀ (data : List Row) (warns : List String), processAllRows csv = .ok (data, warns) →
      ∀ rc ∈ csv, ∀ rs ws, processRow rc.1 rc.2 = .ok (rs, ws) → ∀ r ∈ rs, r ∈ data := by
  induction csv with
  | nil =>
    intro data warns hok rc hrc
    simp at hrc
  | cons hd tl ih =>
    intro data warns hok rc hrc rs ws hrow r hr
    rw [processAllRows] at hok
    cases hph : processRow hd.1 hd.2 with
    | error e =>
      rw [hph] at hok
      simp at hok
    | ok pr =>
      rw [hph] at hok
      cases hpt : processAllRows tl with
      | error e =>
        rw [hpt] at hok
        simp at hok
      | ok pt =>
        rw [hpt] at hok
        simp only [Except.ok.injEq, Prod.mk.injEq] at hok
        obtain ⟨hdata, -⟩ := hok
        rcases List.mem_cons.mp hrc with rfl | htl
        · rw [hrow] at hph
          simp only [Except.ok.injEq] at hph
          rw [← hdata, ← hph]
          exact List.mem_append_left _ hr
        · rw [← hdata]
          exact List.mem_append_right _ (ih pt.1 pt.2 (by rw [hpt]) rc htl rs ws hrow r hr)

/-- A member of an upcast frame is a member of the frame, possibly
float-coerced. -/
theorem mem_upcast_cases {l : List Row} {r : Row} (h : r ∈ upcast l) :
    ∃ y ∈ l, r = y ∨ r = toFloatRow y := by
  rw [upcast] at h
  split_ifs at h with hc
  · obtain ⟨y, hy, rfl⟩ := List.mem_map.mp h
    exact ⟨y, hy, Or.inr rfl⟩
  · exact ⟨r, h, Or.inl rfl⟩

/-- Float coercion changes neither attorney, skill, nor value. -/
theorem toFloatRow_fields (r : Row) :
    (toFloatRow r).attorney = r.attorney ∧ (toFloatRow r).skill = r.skill ∧
      val (toFloatRow r).score = val r.score :=
  ⟨rfl, rfl, rfl⟩

/-- All rows of a given skill carry a fixed value. -/
def skillValProp (sk : String) (v : ℚ) (l : List Row) : Prop :=
  ∀ r ∈ l, r.skill = sk → val r.score = v

/-- The fixed-value property survives the dtype upcast. -/
theorem skillValProp_upcast {sk : String} {v : ℚ} {l : List Row}
    (h : skillValProp sk v l) : skillValProp sk v (upcast l) := by
  intro r hr hsk
  obtain ⟨y, hy, hcase⟩ := mem_upcast_cases hr
  rcases hcase with h1 | h1
  · subst h1
    exact h r hy hsk
  · subst h1
    exact h y hy hsk

/-- The fixed-value property survives a manual insertion whose skills
all differ from the given one. -/
theorem skillValProp_addManualRows {sk : String} {v : ℚ} {d : List Row} {nm : String}
    {skills : List (String × Int)}
    (h : skillValProp sk v d) (hsk : ∀ p ∈ skills, ¬ p.1 = sk) :
    skillValProp sk v (addManualRows d nm skills) := by
  rw [addManualRows]
  have hbase : skillValProp sk v (d.filter (fun r => ¬ r.attorney = nm)) := by
    intro r hr
    exact h r (List.mem_filter.mp hr).1
  revert hbase
  generalize d.filter (fun r => ¬ r.attorney = nm) = base
  induction skills generalizing base with
  | nil =>
    intro hbase
    exact hbase
  | cons p ps ihs =>
    intro hbase
    rw [List.foldl_cons]
    refine ihs (fun q hq => hsk q (by simp [hq])) _ ?_
    intro r hr hskill
    obtain ⟨y, hy, hcase⟩ := mem_upcast_cases hr
    have hysk : y.skill = sk → val y.score = v := by
      intro hy2
      rcases List.mem_append.mp hy with h1 | h1
      · exact hbase y h1 hy2
      · simp only [List.mem_singleton] at h1
        rw [h1] at hy2
        exact absurd hy2 (hsk p (by simp))
    rcases hcase with h1 | h1
    · subst h1
      exact hysk hskill
    · subst h1
      exact hysk hskill

/-- The fixed-value property survives both manual insertions when their
skill names avoid the given one. -/
theorem skillValProp_applyManual {sk : String} {v : ℚ} {d : List Row}
    (h : skillValProp sk v d)
    (hh : ∀ p ∈ hughSkills, ¬ p.1 = sk) (hj : ∀ p ∈ jeremySkills, ¬ p.1 = sk) :
    skillValProp sk v (applyManual d) := by
  have happ : applyManual d =
      addManualRows (addManualRows d "Hugh Kerr" hughSkills) "Jeremy Budd" jeremySkills := by
    simp only [applyManual, manualAttorneys, List.foldl_cons, List.foldl_nil]
  rw [happ]
  exact skillValProp_addManualRows (skillValProp_addManualRows h hh) hj

/-- `find?` on a key commutes with a key-preserving entry map (generic
entry types). -/
theorem find?_map_keyfix2 {β γ : Type} (f : (String × β) → (String × γ))
    (hf : ∀ p, (f p).1 = p.1) (m : List (String × β)) (sk : String) :
    (m.map f).find? (fun p => p.1 == sk) = (m.find? (fun p => p.1 == sk)).map f := by
  induction m with
  | nil => rfl
  | cons p t ih =>
    cases h : (p.1 == sk) with
    | true => simp [List.find?, hf, h]
    | false => simp [List.find?, hf, h, ih]

/-- A frame member keeps a representative with the same skill, attorney
and value across the dtype upcast. -/
theorem mem_fields_upcast {l : List Row} {r : Row} (hr : r ∈ l) :
    ∃ r2 ∈ upcast l, r2.skill = r.skill ∧ r2.attorney = r.attorney ∧
      val r2.score = val r.score := by
  rw [upcast]
  split_ifs with hc
  · exact ⟨toFloatRow r, List.mem_map.mpr ⟨r, hr, rfl⟩, rfl, rfl, rfl⟩
  · exact ⟨r, hr, rfl, rfl, rfl⟩

/-- A row of another attorney keeps a representative with the same
skill, attorney and value across one manual insertion. -/
theorem mem_fields_addManualRows {d : List Row} {r : Row} (nm : String)
    (skills : List (String × Int)) (hr : r ∈ d) (hne : ¬ r.attorney = nm) :
    ∃ r2 ∈ addManualRows d nm skills, r2.skill = r.skill ∧ r2.attorney = r.attorney ∧
      val r2.score = val r.score := by
  rw [addManualRows]
  have hbase : ∃ r2 ∈ d.filter (fun q => ¬ q.attorney = nm),
      r2.skill = r.skill ∧ r2.attorney = r.attorney ∧ val r2.score = val r.score :=
    ⟨r, List.mem_filter.mpr ⟨hr, by simp [hne]⟩, rfl, rfl, rfl⟩
  revert hbase
  generalize d.filter (fun q => ¬ q.attorney = nm) = base
  induction skills generalizing base with
  | nil =>
    intro hbase
    exact hbase
  | cons p ps ih =>
    intro hbase
    rw [List.foldl_cons]
    refine ih _ ?_
    obtain ⟨r2, hr2, hsk, hat, hv⟩ := hbase
    have hmem : r2 ∈ base ++ [(⟨nm, p.1, .pyFloat (p.2 : ℚ)⟩ : Row)] :=
      List.mem_append_left _ hr2
    rw [concatDF, upcast]
    split_ifs with hany
    · exact ⟨toFloatRow r2, List.mem_map.mpr ⟨r2, hmem, rfl⟩, hsk, hat, hv⟩
    · exact ⟨r2, hmem, hsk, hat, hv⟩

/-- A row of a non-override attorney keeps a representative with the
same skill, attorney and value in the final table. -/
theorem mem_fields_applyManual {d : List Row} {r : Row} (hr : r ∈ d)
    (hHK : ¬ r.attorney = "Hugh Kerr") (hJB : ¬ r.attorney = "Jeremy Budd") :
    ∃ r2 ∈ applyManual d, r2.skill = r.skill ∧ r2.attorney = r.attorney ∧
      val r2.score = val r.score := by
  have happ : applyManual d =
      addManualRows (addManualRows d "Hugh Kerr" hughSkills) "Jeremy Budd" jeremySkills := by
    simp only [applyManual, manualAttorneys, List.foldl_cons, List.foldl_nil]
  rw [happ]
  obtain ⟨r1, hr1, hsk1, hat1, hv1⟩ := mem_fields_addManualRows "Hugh Kerr" hughSkills hr hHK
  have hJB1 : ¬ r1.attorney = "Jeremy Budd" := by
    rw [hat1]
    exact hJB
  obtain ⟨r2, hr2, hsk2, hat2, hv2⟩ :=
    mem_fields_addManualRows "Jeremy Budd" jeremySkills hr1 hJB1
  exact ⟨r2, hr2, by rw [hsk2, hsk1], by rw [hat2, hat1], by rw [hv2, hv1]⟩

/-- The stats entry of a skill present in the frame: key found, built
from that skill's nonempty score list. -/
theorem firmStats_entry (df : List Row) (sk : String)
    (hmem : sk ∈ df.map Row.skill) :
    ∃ l, ¬ l = [] ∧ scoresFor df sk = l ∧
      (firmStats df).find? (fun p => p.1 == sk) = some (sk, mkStats l) := by
  obtain ⟨hnd, hnonempty, hlk⟩ := allSkillsFinal_spec df
  have hkey : sk ∈ (allSkillsFinal df).map Prod.fst :=
    (mem_keys_allSkillsFinal df sk).mpr hmem
  obtain ⟨⟨k, l⟩, hp, hpe⟩ := List.mem_map.mp hkey
  simp only at hpe
  subst hpe
  have hfind := find?_eq_some_of_mem hnd hp
  refine ⟨l, hnonempty _ hp, ?_, ?_⟩
  · rw [← hlk, lookupScores, hfind]
    rfl
  · rw [firmStats_eq_map, find?_map_keyfix2 (fun p => (p.1, mkStats p.2)) (fun p => rfl), hfind]
    rfl

/-- Claim C10, counterexample.  With Ann's payload parsing to the
literal skill name `Data Parsing Error` (score 5) and Bob's payload
unparseable, the firm stats entry keyed `Data Parsing Error` mixes the
real score 5 into the placeholder aggregation, so its max score is not 0
(its scores are 5 and 0, not all 0). -/
theorem claim_C10_cex :
    jsonLoads (repair "oops".data) = .error () ∧
    ∃ st, (loadAndProcessData (some [(Cell.str "Ann", Cell.str "\x7b\"Data Parsing Error\": 5\x7d"),
        (Cell.str "Bob", Cell.str "oops")])).2.find?
        (fun p => p.1 == "Data Parsing Error") = some ("Data Parsing Error", st) ∧
      ¬ st.maxScore = 0 := by
  refine ⟨rfl, ?_⟩
  have hok : processAllRows [(Cell.str "Ann", Cell.str "\x7b\"Data Parsing Error\": 5\x7d"),
      (Cell.str "Bob", Cell.str "oops")] =
      .ok ([⟨"Ann", "Data Parsing Error", PyNum.pyFloat ((5 : Int) : ℚ)⟩,
            ⟨"Bob", "Data Parsing Error", PyNum.pyInt 0⟩], ["Bob"]) := rfl
  have h2 : (loadAndProcessData (some [(Cell.str "Ann",
      Cell.str "\x7b\"Data Parsing Error\": 5\x7d"), (Cell.str "Bob", Cell.str "oops")])).2 =
      firmStats (applyManual (mkDF
        [⟨"Ann", "Data Parsing Error", PyNum.pyFloat ((5 : Int) : ℚ)⟩,
         ⟨"Bob", "Data Parsing Error", PyNum.pyInt 0⟩])) := by
    simp [loadAndProcessData, hok]
  rw [h2]
  have hann : (⟨"Ann", "Data Parsing Error", PyNum.pyFloat ((5 : Int) : ℚ)⟩ : Row) ∈
      mkDF [⟨"Ann", "Data Parsing Error", PyNum.pyFloat ((5 : Int) : ℚ)⟩,
            ⟨"Bob", "Data Parsing Error", PyNum.pyInt 0⟩] ∨
      toFloatRow ⟨"Ann", "Data Parsing Error", PyNum.pyFloat ((5 : Int) : ℚ)⟩ ∈
      mkDF [⟨"Ann", "Data Parsing Error", PyNum.pyFloat ((5 : Int) : ℚ)⟩,
            ⟨"Bob", "Data Parsing Error", PyNum.pyInt 0⟩] := by
    rw [mkDF, upcast]
    split_ifs with hc
    · right
      exact List.mem_map.mpr ⟨_, by simp, rfl⟩
    · left
      simp
  have hfields : ∃ r2 ∈ applyManual (mkDF
      [⟨"Ann", "Data Parsing Error", PyNum.pyFloat ((5 : Int) : ℚ)⟩,
       ⟨"Bob", "Data Parsing Error", PyNum.pyInt 0⟩]),
      r2.skill = "Data Parsing Error" ∧ val r2.score = ((5 : Int) : ℚ) := by
    rcases hann with hm | hm
    · obtain ⟨r2, hr2, hsk, -, hv⟩ := mem_fields_applyManual hm (by decide) (by decide)
      exact ⟨r2, hr2, hsk, hv⟩
    · obtain ⟨r2, hr2, hsk, -, hv⟩ := mem_fields_applyManual hm (by decide) (by decide)
      exact ⟨r2, hr2, hsk, hv⟩
  obtain ⟨r2, hr2, hsk, hv⟩ := hfields
  have hmemsk : "Data Parsing Error" ∈ (applyManual (mkDF
      [⟨"Ann", "Data Parsing Error", PyNum.pyFloat ((5 : Int) : ℚ)⟩,
       ⟨"Bob", "Data Parsing Error", PyNum.pyInt 0⟩])).map Row.skill :=
    List.mem_map.mpr ⟨r2, hr2, hsk⟩
  obtain ⟨l, hlne, hscores, hfind⟩ := firmStats_entry _ _ hmemsk
  have hvmem : ((5 : Int) : ℚ) ∈ l := by
    rw [← hscores, scoresFor]
    exact List.mem_map.mpr ⟨r2, List.mem_filter.mpr ⟨hr2, by simp [hsk]⟩, hv⟩
  obtain ⟨h0, t0, hlc⟩ := List.exists_cons_of_ne_nil hlne
  subst hlc
  refine ⟨mkStats (h0 :: t0), hfind, ?_⟩
  obtain ⟨-, hub⟩ := foldl_max_spec h0 t0
  have h5 : ((5 : Int) : ℚ) ≤ (mkStats (h0 :: t0)).maxScore := hub _ hvmem
  intro hzero
  rw [hzero] at h5
  norm_num at h5

/-- Claim C10, amended: if loading succeeds, at least one attorney
outside the override list has an unparseable payload, and no parsed
skill is itself literally named `Data Parsing Error`, then `firm_stats`
contains an entry keyed `Data Parsing Error` with average, maximum and
minimum all 0 — placeholder rows are aggregated exactly like real
skills. -/
theorem claim_C10_amended (csv : List (Cell × Cell)) (data : List Row) (warns : List String)
    (hok : processAllRows csv = .ok (data, warns)) (hne : ¬ data = [])
    (hbad : ∃ rc ∈ csv, ∃ nmr s, rc = (Cell.str nmr, Cell.str s) ∧
      jsonLoads (repair s.data) = .error () ∧
      ¬ (stripS nmr = "Hugh Kerr" ∨ stripS nmr = "Jeremy Budd"))
    (hpure : ∀ r ∈ data, r.skill = "Data Parsing Error" → r.score = PyNum.pyInt 0) :
    ∃ st, (loadAndProcessData (some csv)).2.find?
        (fun p => p.1 == "Data Parsing Error") = some ("Data Parsing Error", st) ∧
      st.avgScore = 0 ∧ st.maxScore = 0 ∧ st.minScore = 0 := by
  obtain ⟨rc, hrc, nmr, s, hrceq, herr, hname⟩ := hbad
  have hrow : processRow rc.1 rc.2 = .ok ([placeholderRow (stripS nmr)], [stripS nmr]) := by
    rw [hrceq]
    simp [processRow, herr, hname]
  have hph : placeholderRow (stripS nmr) ∈ data :=
    mem_data_of_processRow csv data warns hok rc hrc _ _ hrow _ (by simp)
  have h2 : (loadAndProcessData (some csv)).2 = firmStats (applyManual (mkDF data)) := by
    simp [loadAndProcessData, hok, hne]
  rw [h2]
  have hHK : ¬ (placeholderRow (stripS nmr)).attorney = "Hugh Kerr" :=
    fun hq => hname (Or.inl hq)
  have hJB : ¬ (placeholderRow (stripS nmr)).attorney = "Jeremy Budd" :=
    fun hq => hname (Or.inr hq)
  obtain ⟨r1, hr1, hsk1, hat1, hv1⟩ := mem_fields_upcast hph
  obtain ⟨r2, hr2, hsk2, hat2, hv2⟩ :=
    mem_fields_applyManual (d := mkDF data) hr1 (by rw [hat1]; exact hHK)
      (by rw [hat1]; exact hJB)
  have hmemsk : "Data Parsing Error" ∈ (applyManual (mkDF data)).map Row.skill :=
    List.mem_map.mpr ⟨r2, hr2, by rw [hsk2, hsk1]; rfl⟩
  obtain ⟨l, hlne, hscores, hfind⟩ := firmStats_entry _ _ hmemsk
  have hvp : skillValProp "Data Parsing Error" 0 (applyManual (mkDF data)) :=
    skillValProp_applyManual
      (skillValProp_upcast (fun r hr hsk => by rw [hpure r hr hsk]; rfl))
      (by decide) (by decide)
  have hzero : ∀ x ∈ l, x = 0 := by
    intro x hx
    rw [← hscores, scoresFor] at hx
    obtain ⟨r, hrf, hrv⟩ := List.mem_map.mp hx
    have hrm := List.mem_filter.mp hrf
    rw [← hrv]
    exact hvp r hrm.1 (by simpa using hrm.2)
  obtain ⟨h0, t0, hlc⟩ := List.exists_cons_of_ne_nil hlne
  subst hlc
  refine ⟨mkStats (h0 :: t0), hfind, ?_, ?_, ?_⟩
  · show (h0 :: t0).sum / (((h0 :: t0).length : ℕ) : ℚ) = 0
    rw [List.sum_eq_zero hzero]
    exact zero_div _
  · obtain ⟨hm, -⟩ := foldl_max_spec h0 t0
    exact hzero _ hm
  · obtain ⟨hm, -⟩ := foldl_min_spec h0 t0
    exact hzero _ hm

/-- Claim C10, witness: a CSV holding only Bob's unparseable payload
yields a `Data Parsing Error` stats entry with all aggregates 0. -/
theorem claim_C10_witness :
    ∃ st, (loadAndProcessData (some [(Cell.str "Bob", Cell.str "oops")])).2.find?
        (fun p => p.1 == "Data Parsing Error") = some ("Data Parsing Error", st) ∧
      st.avgScore = 0 ∧ st.maxScore = 0 ∧ st.minScore = 0 :=
  claim_C10_amended [(Cell.str "Bob", Cell.str "oops")]
    [⟨"Bob", "Data Parsing Error", PyNum.pyInt 0⟩] ["Bob"] rfl (by simp)
    ⟨(Cell.str "Bob", Cell.str "oops"), by simp, "Bob", "oops", rfl, rfl, by decide⟩
    (by decide)
